import Mathlib

/-!
Verification development for the ZKP-Polynomial-Vs-IMT repository.

The repository implements two membership-commitment engines over the BN254
scalar field: a polynomial-root commitment (polynomial_equation.ts,
polynomial/utils/benchmark_poly_helper.js) and an incremental Merkle tree
(IMT/utils/merkle_tree.ts, embedded in IMT/utils/test_data_generator.js).
This file gives a shallow embedding of both engines and proves the testable
properties stated in the specification.

Conventions of the embedding:
- JS bigint is modelled as Lean Int; the JS helper mod (truncated remainder
  followed by a conditional add of the modulus) coincides with Int.emod for a
  positive modulus, which is what the embedding uses.
- Imperative loops with in-place array writes become structural recursions
  whose accumulators carry exactly the mutable state of the loop; each
  definition documents the correspondence.
- The Poseidon2 hash is an external black box; the tree embedding is
  parametrised by an arbitrary pair-hash function and zero-leaf value.
- Fallible operations (throw / return null) become Except values.
-/

set_option maxRecDepth 4000

namespace ZKPCompare

/-! # Definitions -/

/-! ## Field arithmetic (polynomial_equation.ts) -/

/-- The BN254 scalar field prime, source constant bn_254_fp / FIELD_PRIME. -/
def bn_254_fp : ℕ :=
  21888242871839275222246405745257275088548364400416034343698204186575808495617

/-- Source helper mod: in JS, x % f (truncated remainder) followed by adding f
when the result is negative.  For the positive modulus bn_254_fp this is
exactly the Euclidean remainder, Lean's Int.emod, with range [0, f). -/
def fmod (x : ℤ) : ℤ := x % (bn_254_fp : ℤ)

instance : NeZero bn_254_fp := ⟨by norm_num [bn_254_fp]⟩

/-- A canonical field element in the sense of the spec: an integer in [0, p). -/
def IsCanon (x : ℤ) : Prop := 0 ≤ x ∧ x < (bn_254_fp : ℤ)

/-- The field as a Lean type, used only on the specification side of proofs. -/
abbrev Fp : Type := ZMod bn_254_fp

instance decIsCanon (x : ℤ) : Decidable (IsCanon x) :=
  inferInstanceAs (Decidable (0 ≤ x ∧ x < (bn_254_fp : ℤ)))

/-! ## Polynomial commitment (polynomial_equation.ts)

A polynomial is a list of bigint coefficients, lowest degree first. -/

/-- Source constant MAX_POLY_DEGREE (must match the circuit). -/
def MAX_POLY_DEGREE : ℕ := 128

/-- Source constant initial_polynomial: the polynomial P(x) = 1. -/
def initial_polynomial : List ℤ := [1]

/-- The body of the addRoot loop.  The source allocates a zero-filled array
newPoly of length |oldPoly|+1 and for each i sets
newPoly[i+1] = mod(newPoly[i+1] + oldPoly[i]) and then
newPoly[i]   = mod(newPoly[i] - mod(oldPoly[i] * newRoot)).
Slot i is written twice: first to mod(0 + oldPoly[i-1]) by iteration i-1,
then to the final value by iteration i.  The accumulator prev carries the
value currently stored at the slot being finalised (0 for slot 0); the last
slot keeps its once-written value mod(0 + oldPoly[n-1]). -/
def addRootAux (newRoot : ℤ) : ℤ → List ℤ → List ℤ
  | prev, [] => [prev]
  | prev, c :: rest => fmod (prev - fmod (c * newRoot)) :: addRootAux newRoot (fmod (0 + c)) rest

/-- Source addRoot: multiply the polynomial by (x - newRoot). -/
def addRoot (oldPoly : List ℤ) (newRoot : ℤ) : List ℤ := addRootAux newRoot 0 oldPoly

/-- The inner multiply-by-(x - root) loop of interpolatePolynomial; the source
duplicates the body of addRoot verbatim inside the interpolation loop. -/
def interpAux (root : ℤ) : ℤ → List ℤ → List ℤ
  | prev, [] => [prev]
  | prev, c :: rest => fmod (prev - fmod (c * root)) :: interpAux root (fmod (0 + c)) rest

/-- Source interpolatePolynomial: start with the polynomial [1] and multiply by
(x - root) once for each root, in order. -/
def interpolatePolynomial (roots : List ℤ) : List ℤ :=
  roots.foldl (fun polynomial root => interpAux root 0 polynomial) [1]

/-- Error outcomes of removeRoot: the source throws for degree <= 0 and
returns null when the remainder of the synthetic division is nonzero. -/
inductive RemoveRootError where
  | degreeTooLow : RemoveRootError
  | notARoot : RemoveRootError
deriving DecidableEq

instance exceptDecEq {e a : Type} [DecidableEq e] [DecidableEq a] :
    DecidableEq (Except e a) := fun x y =>
  match x, y with
  | .error u, .error v => decidable_of_iff (u = v) (by simp)
  | .ok u, .ok v => decidable_of_iff (u = v) (by simp)
  | .error _, .ok _ => .isFalse (by simp)
  | .ok _, .error _ => .isFalse (by simp)

/-- The synthetic-division loop of removeRoot, driven from the highest
coefficient down; the input list here is oldPoly reversed.  For each i > 0 the
source computes coeff = mod(oldPoly[i] + carry), stores it as quotient
coefficient i-1 and updates carry = mod(coeff * rootToRemove); at i = 0 the
final coeff is the remainder and the call fails when it is nonzero.  The
emitted quotient is highest degree first. -/
def synthDivRev (rootToRemove : ℤ) : ℤ → List ℤ → Option (List ℤ)
  | _, [] => none
  | carry, [c] => if fmod (c + carry) ≠ 0 then none else some []
  | carry, c :: rest =>
      (synthDivRev rootToRemove (fmod (fmod (c + carry) * rootToRemove)) rest).map
        (fun q => fmod (c + carry) :: q)

/-- Source removeRoot: divide by (x - rootToRemove) by synthetic division.
Throws (degreeTooLow) when the polynomial has degree at most 0, returns null
(notARoot) when the remainder is nonzero, otherwise the quotient, lowest
degree first. -/
def removeRoot (oldPoly : List ℤ) (rootToRemove : ℤ) : Except RemoveRootError (List ℤ) :=
  if oldPoly.length ≤ 1 then .error .degreeTooLow
  else
    match synthDivRev rootToRemove 0 oldPoly.reverse with
    | none => .error .notARoot
    | some q => .ok q.reverse

/-- The evaluation loop of verifyPolynomial: result accumulates
mod(result + mod(coeff * rootPower)) while rootPower accumulates
mod(rootPower * root), over the coefficients lowest degree first. -/
def verifyAux (root : ℤ) : ℤ → ℤ → List ℤ → ℤ
  | result, _, [] => result
  | result, rootPower, coeff :: rest =>
      verifyAux root (fmod (result + fmod (coeff * rootPower))) (fmod (rootPower * root)) rest

/-- The field value Σ coeff_i · root^i computed by verifyPolynomial before its
comparison with 0. -/
def evaluatePoly (coefficients : List ℤ) (root : ℤ) : ℤ := verifyAux root 0 1 coefficients

/-- Source verifyPolynomial: true iff the polynomial evaluates to 0 at root. -/
def verifyPolynomial (coefficients : List ℤ) (root : ℤ) : Bool :=
  evaluatePoly coefficients root == 0

/-! ### Specification-side mirrors over the field Fp

Each loop of the source is mirrored by a function on Fp without the explicit
mod reductions; casting commutes with the integer-level functions. -/

/-- Horner evaluation of a coefficient list (lowest degree first) over Fp. -/
def hornerF (x : Fp) : List Fp → Fp
  | [] => 0
  | c :: rest => c + x * hornerF x rest

/-- Fp mirror of addRootAux / interpAux. -/
def addRootAuxF (newRoot : Fp) : Fp → List Fp → List Fp
  | prev, [] => [prev]
  | prev, c :: rest => (prev - c * newRoot) :: addRootAuxF newRoot c rest

/-- Cast a coefficient list into the field, coefficientwise. -/
def castList : List ℤ → List Fp
  | [] => []
  | c :: rest => (c : Fp) :: castList rest

/-- The quotient-building phase of the synthetic-division loop run over a whole
list (no remainder check): returns the emitted coefficients and final carry. -/
def synthRun (r : ℤ) : ℤ → List ℤ → List ℤ × ℤ
  | carry, [] => ([], carry)
  | carry, c :: rest =>
      let res := synthRun r (fmod (fmod (c + carry) * r)) rest
      (fmod (c + carry) :: res.1, res.2)

/-! ### Fp mirror of the carry chain, for the remainder analysis -/

/-- Fp mirror of the carry evolution of synthRun. -/
def carryF (r : Fp) : Fp → List Fp → Fp
  | carry, [] => carry
  | carry, d :: rest => carryF r ((d + carry) * r) rest

namespace IMT

variable (depth : ℕ) (hashPair : ℤ → ℤ → ℤ) (zeroValue : ℤ)

/-! ## Incremental Merkle tree (IMT/utils/merkle_tree.ts)

The tree is embedded relative to three parameters: the tree depth (the source
fixes TREE_DEPTH = 20), the opaque Poseidon2 pair hash hashPair, and the
opaque zero-leaf value zeroValue = getZeroValue() = poseidon2([0]).  Node and
leaf values are bigints, modelled as Int. -/


/-- Source constant TREE_DEPTH (must match the circuit). -/
def TREE_DEPTH : ℕ := 20

/-- Source ZERO_HASHES table: zeroHashes[0] is the zero-leaf value and
zeroHashes[i+1] = hashPair(zeroHashes[i], zeroHashes[i]). -/
def zeroHashes : ℕ → ℤ
  | 0 => zeroValue
  | i + 1 => hashPair (zeroHashes i) (zeroHashes i)

/-- Tree state: the leaves array, the sparse internal-node map (keyed by
(level, index); the source keys a JS Map by the string "level:index"), and the
next free leaf index.  The map is modelled as an association list where a
fresh entry is consed on and lookup takes the first match, which is exactly
overwrite semantics. -/
structure IncrementalMerkleTree where
  leaves : List ℤ
  nodes : List ((ℕ × ℕ) × ℤ)
  nextIndex : ℕ

/-- The tree constructed by the source constructor: empty in every component. -/
def emptyTree : IncrementalMerkleTree := ⟨[], [], 0⟩

/-- Source getNode: look the pair key up in the sparse map. -/
def getNode (t : IncrementalMerkleTree) (level index : ℕ) : Option ℤ :=
  (t.nodes.find? (fun e => e.1 == (level, index))).map (fun e => e.2)

/-- Source setNode: overwrite the entry for the pair key. -/
def setNode (t : IncrementalMerkleTree) (level index : ℕ) (value : ℤ) :
    IncrementalMerkleTree :=
  { t with nodes := ((level, index), value) :: t.nodes }

/-- The sibling fetch appearing in both updatePath and getMerklePath: at the
leaf level read the leaves array, falling back to the zero leaf for an index
never populated; at internal levels read the sparse map, falling back to the
zero hash of the level. -/
def readNodeOrZero (t : IncrementalMerkleTree) (level j : ℕ) : ℤ :=
  if level = 0 then (t.leaves.get? j).getD zeroValue
  else (getNode t level j).getD (zeroHashes hashPair zeroValue level)

/-- The loop body of updatePath, one iteration per level from 0 to depth - 1.
The loop state is (current level, current index, current hash, tree so far);
rem counts the remaining iterations and is depth - level throughout. -/
def updatePathGo : IncrementalMerkleTree → ℕ → ℕ → ℤ → ℕ → IncrementalMerkleTree
  | t, _, _, _, 0 => t
  | t, level, currentIndex, currentHash, rem + 1 =>
      let isRight := currentIndex % 2 = 1
      let siblingIndex := if isRight then currentIndex - 1 else currentIndex + 1
      let parentIndex := currentIndex / 2
      let siblingHash := readNodeOrZero hashPair zeroValue t level siblingIndex
      let parentHash :=
        if isRight then hashPair siblingHash currentHash
        else hashPair currentHash siblingHash
      updatePathGo (setNode t (level + 1) parentIndex parentHash)
        (level + 1) parentIndex parentHash rem

/-- Source updatePath: recompute the stored ancestors of the given leaf.  The
call sites guarantee that the leaf at index is populated, so the getD default
is never exercised. -/
def updatePath (t : IncrementalMerkleTree) (index : ℕ) : IncrementalMerkleTree :=
  updatePathGo hashPair zeroValue t 0 index ((t.leaves.get? index).getD zeroValue) depth

/-- Error outcomes of the tree operations: insert throws when the tree is
full; update, delete and getMerklePath throw on an unpopulated index. -/
inductive TreeError where
  | treeFull : TreeError
  | indexOutOfRange : TreeError
deriving DecidableEq

/-- Source constant MAX_LEAVES = 2 ^ TREE_DEPTH. -/
def MAX_LEAVES : ℕ := 2 ^ depth

/-- JS array element assignment leaves[index] = leaf; the call sites only
assign at index <= length (append exactly when index = length). -/
def setLeaf (leaves : List ℤ) (index : ℕ) (leaf : ℤ) : List ℤ :=
  if index < leaves.length then leaves.set index leaf else leaves ++ [leaf]

/-- Source insert: fail when the tree already holds MAX_LEAVES leaves,
otherwise store the leaf at nextIndex, recompute its path, bump nextIndex and
return the index where the leaf went. -/
def insert (t : IncrementalMerkleTree) (leaf : ℤ) :
    Except TreeError (ℕ × IncrementalMerkleTree) :=
  if MAX_LEAVES depth ≤ t.nextIndex then .error .treeFull
  else
    let index := t.nextIndex
    let t1 : IncrementalMerkleTree := { t with leaves := setLeaf t.leaves index leaf }
    let t2 := updatePath depth hashPair zeroValue t1 index
    .ok (index, { t2 with nextIndex := index + 1 })

/-- Source update: fail when index is not a populated index (JS also rejects
negative indices, which the Nat index makes unrepresentable), otherwise
replace the leaf and recompute its path. -/
def update (t : IncrementalMerkleTree) (index : ℕ) (newLeaf : ℤ) :
    Except TreeError IncrementalMerkleTree :=
  if t.nextIndex ≤ index then .error .indexOutOfRange
  else
    let t1 : IncrementalMerkleTree := { t with leaves := setLeaf t.leaves index newLeaf }
    .ok (updatePath depth hashPair zeroValue t1 index)

/-- Source delete: update the leaf to the zero value getZeroValue(). -/
def deleteLeaf (t : IncrementalMerkleTree) (index : ℕ) :
    Except TreeError IncrementalMerkleTree :=
  update depth hashPair zeroValue t index zeroValue

/-- Source getRoot: the zero hash of the full depth for an empty tree,
otherwise the stored node at (depth, 0), with the same zero hash as fallback. -/
def getRoot (t : IncrementalMerkleTree) : ℤ :=
  if t.nextIndex = 0 then zeroHashes hashPair zeroValue depth
  else (getNode t depth 0).getD (zeroHashes hashPair zeroValue depth)

/-- The loop body of getMerklePath: per level push the sibling hash onto path
and the direction bit (1 exactly when the current node is a right child) onto
pathIndices, then move to the parent index. -/
def getMerklePathGo (t : IncrementalMerkleTree) :
    ℕ → ℕ → List ℤ → List ℤ → ℕ → List ℤ × List ℤ
  | _, _, path, pathIndices, 0 => (path, pathIndices)
  | level, currentIndex, path, pathIndices, rem + 1 =>
      let isRight := currentIndex % 2 = 1
      let siblingIndex := if isRight then currentIndex - 1 else currentIndex + 1
      let siblingHash := readNodeOrZero hashPair zeroValue t level siblingIndex
      getMerklePathGo t (level + 1) (currentIndex / 2)
        (path ++ [siblingHash]) (pathIndices ++ [if isRight then (1 : ℤ) else 0]) rem

/-- Source getMerklePath: fail on an unpopulated index, otherwise return the
sibling hashes and direction bits for all depth levels. -/
def getMerklePath (t : IncrementalMerkleTree) (index : ℕ) :
    Except TreeError (List ℤ × List ℤ) :=
  if t.nextIndex ≤ index then .error .indexOutOfRange
  else .ok (getMerklePathGo hashPair zeroValue t 0 index [] [] depth)

/-- The index-reconstruction loop of verifyMerkleProof: reconstructedIndex
accumulates pathIndices[i] * powerOfTwo while powerOfTwo doubles. -/
def reconstructGo : ℤ → ℤ → List ℤ → ℤ
  | reconstructedIndex, _, [] => reconstructedIndex
  | reconstructedIndex, powerOfTwo, b :: rest =>
      reconstructGo (reconstructedIndex + b * powerOfTwo) (powerOfTwo * 2) rest

/-- The root-recomputation loop of verifyMerkleProof: hash the running value
with each sibling, on the side selected by the direction bit.  The source
iterates TREE_DEPTH times over two arrays already checked to have length
TREE_DEPTH, which the paired recursion consumes in lockstep. -/
def computeRootGo : ℤ → List ℤ → List ℤ → ℤ
  | currentHash, [], _ => currentHash
  | currentHash, _ :: _, [] => currentHash
  | currentHash, s :: ps, b :: bs =>
      computeRootGo (if b = 1 then hashPair s currentHash else hashPair currentHash s) ps bs

/-- Source verifyMerkleProof: reject unless both lists have length exactly
depth; reject unless the direction bits, read as a little-endian binary
number, reconstruct the claimed index; otherwise recompute the root from the
leaf along the path and compare with the supplied root. -/
def verifyMerkleProof (leaf : ℤ) (index : ℕ) (path pathIndices : List ℤ)
    (root : ℤ) : Bool :=
  if path.length ≠ depth ∨ pathIndices.length ≠ depth then false
  else if reconstructGo 0 1 pathIndices ≠ (index : ℤ) then false
  else computeRootGo hashPair leaf path pathIndices == root

/-- Inserting a list of leaves in order, stopping at the first failure. -/
def insertList (t : IncrementalMerkleTree) : List ℤ → Except TreeError IncrementalMerkleTree
  | [] => .ok t
  | leaf :: rest =>
      match insert depth hashPair zeroValue t leaf with
      | .error e => .error e
      | .ok (_, t1) => insertList t1 rest

/-- The tree states reachable from the empty tree by the public mutators. -/
inductive Reachable : IncrementalMerkleTree → Prop where
  | empty : Reachable emptyTree
  | insertStep (t t' : IncrementalMerkleTree) (leaf : ℤ) (idx : ℕ) :
      Reachable t → insert depth hashPair zeroValue t leaf = .ok (idx, t') → Reachable t'
  | updateStep (t t' : IncrementalMerkleTree) (idx : ℕ) (newLeaf : ℤ) :
      Reachable t → update depth hashPair zeroValue t idx newLeaf = .ok t' → Reachable t'
  | deleteStep (t t' : IncrementalMerkleTree) (idx : ℕ) :
      Reachable t → deleteLeaf depth hashPair zeroValue t idx = .ok t' → Reachable t'

/-! ### Specification side: intended subtree hashes -/

/-- The intended value of the node at (level, j) determined by the leaves
array alone: leaves (with the zero-leaf default) at level 0, the pair hash of
the two children above. -/
def subtreeHash (leaves : List ℤ) : ℕ → ℕ → ℤ
  | 0, j => (leaves.get? j).getD zeroValue
  | l + 1, j =>
      hashPair (subtreeHash leaves l (2 * j)) (subtreeHash leaves l (2 * j + 1))

/-- All internal reads of the given tree agree with the intended subtree
hashes; this is the semantic invariant of the sparse node map. -/
def NodesOK (t : IncrementalMerkleTree) : Prop :=
  ∀ l j, 1 ≤ l → l ≤ depth →
    (getNode t l j).getD (zeroHashes hashPair zeroValue l) =
      subtreeHash hashPair zeroValue t.leaves l j

/-! ### Preservation of the invariant by the public mutators -/

/-- The well-formedness invariant of a tree state: the leaves array is exactly
the populated prefix, the leaf count is within capacity, and all internal
reads are correct. -/
def GoodTree (t : IncrementalMerkleTree) : Prop :=
  t.leaves.length = t.nextIndex ∧ t.nextIndex ≤ 2 ^ depth ∧
    NodesOK depth hashPair zeroValue t

/-- A concrete hash standing in for the opaque Poseidon2 pair hash in the
counterexample computation. -/
def cexHashPair (a b : ℤ) : ℤ := a + b + 1

/-- The tree obtained by inserting the leaf 5 into an empty depth-20 tree. -/
def cexTree1 : IncrementalMerkleTree :=
  match insert TREE_DEPTH cexHashPair 0 emptyTree 5 with
  | .ok (_, t) => t
  | .error _ => emptyTree

/-- The tree obtained from cexTree1 by deleting index 0. -/
def cexTree2 : IncrementalMerkleTree :=
  match deleteLeaf TREE_DEPTH cexHashPair 0 cexTree1 0 with
  | .ok t => t
  | .error _ => emptyTree

end IMT

namespace Batch

/-! ## Batch manager (polynomial/utils/benchmark_poly_helper.js)

The value-level model of addSecretsToBatches.  The state is the triple
(batches, batchRoots, userMap): the polynomial coefficient lists, the root
list of each batch, and the root-to-batch map.  The JS Map is keyed by
secret.toString(); bigint toString is injective, so the model keys by the
integer itself. -/


/-- The first-fit scan of the for-loop: the index of the first batch whose
root list holds fewer than MAX_POLY_DEGREE roots. -/
def findAvailable : List (List ℤ) → Option ℕ
  | [] => none
  | rl :: rest =>
      if rl.length < MAX_POLY_DEGREE then some 0
      else (findAvailable rest).map (fun i => i + 1)

/-- Functional overwrite, the effect of userMap.set. -/
def mapSet (m : ℤ → Option ℕ) (k : ℤ) (v : ℕ) : ℤ → Option ℕ :=
  fun x => if x = k then some v else m x

/-- The empty map (a fresh new Map()). -/
def emptyMap : ℤ → Option ℕ := fun _ => none

/-- One iteration of the loop over newSecrets: place the secret in the first
non-full batch (push the root, replace the batch polynomial by
addRoot(batch, secret), record the batch index in the map), or, when every
batch is full, append a new batch seeded with addRoot([1], secret) and record
the index of the appended batch. -/
def insertSecret (st : List (List ℤ) × List (List ℤ) × (ℤ → Option ℕ))
    (secret : ℤ) : List (List ℤ) × List (List ℤ) × (ℤ → Option ℕ) :=
  match findAvailable st.2.1 with
  | some i =>
      (st.1.set i (addRoot (st.1.getD i []) secret),
        st.2.1.set i (st.2.1.getD i [] ++ [secret]),
        mapSet st.2.2 secret i)
  | none =>
      (st.1 ++ [addRoot [1] secret],
        st.2.1 ++ [[secret]],
        mapSet st.2.2 secret st.2.1.length)

/-- Source addSecretsToBatches, value level: fold the per-secret insertion
over the incoming secrets.  (The source copies its array arguments first;
that aliasing discipline is modelled in the Heap section below.) -/
def addSecretsToBatches (batches batchRoots : List (List ℤ))
    (userMap : ℤ → Option ℕ) (newSecrets : List ℤ) :
    List (List ℤ) × List (List ℤ) × (ℤ → Option ℕ) :=
  newSecrets.foldl insertSecret (batches, batchRoots, userMap)

/-- A sequence of addSecretsToBatches calls threaded from the empty state. -/
def runCalls (calls : List (List ℤ)) :
    List (List ℤ) × List (List ℤ) × (ℤ → Option ℕ) :=
  calls.foldl
    (fun st secrets => addSecretsToBatches st.1 st.2.1 st.2.2 secrets)
    ([], [], emptyMap)

/-- The batch-state invariant, relative to the set of secrets processed so
far: batches and root lists are aligned, every batch but the last is exactly
full, no batch exceeds the bound, the map and the root lists agree exactly,
and the map's domain is contained in the processed secrets. -/
def BatchInv (processed : List ℤ)
    (st : List (List ℤ) × List (List ℤ) × (ℤ → Option ℕ)) : Prop :=
  st.1.length = st.2.1.length ∧
  (∀ i, i + 1 < st.2.1.length → (st.2.1.getD i []).length = MAX_POLY_DEGREE) ∧
  (∀ i, i < st.2.1.length → (st.2.1.getD i []).length ≤ MAX_POLY_DEGREE) ∧
  (∀ k i, st.2.2 k = some i → i < st.2.1.length ∧ k ∈ st.2.1.getD i []) ∧
  (∀ i, i < st.2.1.length → ∀ k, k ∈ st.2.1.getD i [] → st.2.2 k = some i) ∧
  (∀ k, st.2.2 k ≠ none → k ∈ processed)

/-! ## Claim C6: the batch invariant -/

/-- The 128 distinct roots 0..127 followed by the root 0 again. -/
def cexSecrets : List ℤ := (List.range MAX_POLY_DEGREE).map (fun n => (n : ℤ)) ++ [0]

/-- The batch state after inserting cexSecrets into the empty state. -/
def cexBatchState : List (List ℤ) × List (List ℤ) × (ℤ → Option ℕ) :=
  addSecretsToBatches [] [] emptyMap cexSecrets

end Batch

namespace Heap

/-! ## Heap-level model of addSecretsToBatches, for the aliasing claim

Claim C10 is about which JS objects the function mutates, so the function is
embedded once more over an explicit store of heap objects: JS arrays and the
Map are addresses into the store.  The source's opening statements
[...batches] (shallow copy: a fresh array with the same element references)
and batchRoots.map(r => [...r]) (deep copy: fresh inner arrays) are explicit
allocations; userMap.set writes through the caller's map address.  addRoot
reads its argument array and fills a freshly allocated result array, so at
this granularity it is an allocation of the value-level addRoot result. -/


/-- A heap object: a bigint array, an array of array references, or the Map
(entries in insertion order). -/
inductive HObj where
  | ints : List ℤ → HObj
  | refs : List ℕ → HObj
  | table : List (ℤ × ℕ) → HObj

/-- The store: contents per address, plus the next fresh address. -/
structure Store where
  mem : ℕ → Option HObj
  next : ℕ

/-- Well-formed store: nothing lives at or above the allocation frontier. -/
def Store.WF (σ : Store) : Prop := ∀ a, σ.next ≤ a → σ.mem a = none

/-- Allocate a fresh object, returning the new store and its address. -/
def allocH (σ : Store) (o : HObj) : Store × ℕ :=
  ({ mem := fun a => if a = σ.next then some o else σ.mem a, next := σ.next + 1 },
    σ.next)

/-- Overwrite the object at an existing address. -/
def writeH (σ : Store) (a : ℕ) (o : HObj) : Store :=
  { σ with mem := fun b => if b = a then some o else σ.mem b }

/-- Read a bigint array (defaulting for the unreachable ill-typed cases). -/
def getIntsH (σ : Store) (a : ℕ) : List ℤ :=
  match σ.mem a with
  | some (.ints xs) => xs
  | _ => []

/-- Read an array of references. -/
def getRefsH (σ : Store) (a : ℕ) : List ℕ :=
  match σ.mem a with
  | some (.refs rs) => rs
  | _ => []

/-- Read the Map entries. -/
def getTableH (σ : Store) (a : ℕ) : List (ℤ × ℕ) :=
  match σ.mem a with
  | some (.table m) => m
  | _ => []

/-- Map.set at the entry level: overwrite the entry for an existing key in
place, otherwise append a new entry. -/
def tableSet (m : List (ℤ × ℕ)) (k : ℤ) (v : ℕ) : List (ℤ × ℕ) :=
  if m.any (fun e => e.1 == k) then m.map (fun e => if e.1 == k then (k, v) else e)
  else m ++ [(k, v)]

/-- The deep copy batchRoots.map(r => [...r]): allocate a fresh copy of every
inner array, left to right, returning the new store and the copy addresses. -/
def copyRootArrays (σ : Store) : List ℕ → Store × List ℕ
  | [] => (σ, [])
  | a :: rest =>
      let res := allocH σ (.ints (getIntsH σ a))
      let res2 := copyRootArrays res.1 rest
      (res2.1, res.2 :: res2.2)

/-- The first-fit scan of the loop, reading root lists through the heap. -/
def findAvailableH (σ : Store) : List ℕ → Option ℕ
  | [] => none
  | a :: rest =>
      if (getIntsH σ a).length < MAX_POLY_DEGREE then some 0
      else (findAvailableH σ rest).map (fun i => i + 1)

/-- One iteration of the loop over newSecrets at the heap level; curBatchesA
and curRootsA are the function's working arrays (the shallow copy of batches
and the deep copy of batchRoots), mapA is the caller's Map object. -/
def insertSecretH (curBatchesA curRootsA mapA : ℕ) (σ : Store) (secret : ℤ) :
    Store :=
  match findAvailableH σ (getRefsH σ curRootsA) with
  | some i =>
      let ra := (getRefsH σ curRootsA).getD i 0
      let σ1 := writeH σ ra (.ints (getIntsH σ ra ++ [secret]))
      let pa := (getRefsH σ1 curBatchesA).getD i 0
      let res := allocH σ1 (.ints (addRoot (getIntsH σ1 pa) secret))
      let σ3 := writeH res.1 curBatchesA
        (.refs ((getRefsH res.1 curBatchesA).set i res.2))
      writeH σ3 mapA (.table (tableSet (getTableH σ3 mapA) secret i))
  | none =>
      let res1 := allocH σ (.ints [secret])
      let res2 := allocH res1.1 (.ints (addRoot [1] secret))
      let σ3 := writeH res2.1 curRootsA
        (.refs (getRefsH res2.1 curRootsA ++ [res1.2]))
      let σ4 := writeH σ3 curBatchesA
        (.refs (getRefsH σ3 curBatchesA ++ [res2.2]))
      writeH σ4 mapA (.table (tableSet (getTableH σ4 mapA) secret
        ((getRefsH σ4 curRootsA).length - 1)))

/-- Source addSecretsToBatches at the heap level: shallow-copy batches,
deep-copy batchRoots, run the loop, and hand back the final store together
with the references returned to the caller (the two fresh arrays and the
same map object). -/
def addSecretsToBatchesH (σ : Store) (batchesA batchRootsA mapA : ℕ)
    (newSecrets : List ℤ) : Store × ℕ × ℕ × ℕ :=
  let res1 := allocH σ (.refs (getRefsH σ batchesA))
  let res2 := copyRootArrays res1.1 (getRefsH res1.1 batchRootsA)
  let res3 := allocH res2.1 (.refs res2.2)
  (newSecrets.foldl (insertSecretH res1.2 res3.2 mapA) res3.1,
    res1.2, res3.2, mapA)

/-! ### The frame invariant of the insertion loop -/

/-- Invariant carried through the loop: the store stays well-formed and only
grows; the working arrays stay live; every pre-existing object other than the
caller's map is untouched; the working root arrays are all fresh (allocated
by this call) and distinct from the working containers; and the key set of
the caller's map is the original key set plus the processed secrets. -/
def FoldInv (σ0 : Store) (mapA cbA crA : ℕ) (processed : List ℤ) (σ : Store) :
    Prop :=
  σ.WF ∧ σ0.next ≤ σ.next ∧ cbA < σ.next ∧ crA < σ.next ∧
  (∀ a, a < σ0.next → a ≠ mapA → σ.mem a = σ0.mem a) ∧
  (∀ a, a ∈ getRefsH σ crA → σ0.next ≤ a ∧ a < σ.next ∧ a ≠ crA ∧ a ≠ cbA) ∧
  (∀ k, (∃ v, (k, v) ∈ getTableH σ mapA) ↔
    (∃ v, (k, v) ∈ getTableH σ0 mapA) ∨ k ∈ processed)

/-- A one-object store: an empty map at address 0. -/
def mapOnlyStore : Store where
  mem := fun a => if a = 0 then some (.table []) else none
  next := 1

end Heap

/-! # Theorems -/

lemma bn_254_fp_pos : 0 < bn_254_fp := by norm_num [bn_254_fp]

lemma bn_254_fp_int_pos : 0 < (bn_254_fp : ℤ) := by exact_mod_cast bn_254_fp_pos

lemma fmod_nonneg (x : ℤ) : 0 ≤ fmod x :=
  Int.emod_nonneg x (by norm_num [bn_254_fp])

lemma fmod_lt (x : ℤ) : fmod x < (bn_254_fp : ℤ) :=
  Int.emod_lt_of_pos x bn_254_fp_int_pos

lemma fmod_isCanon (x : ℤ) : IsCanon (fmod x) := ⟨fmod_nonneg x, fmod_lt x⟩

lemma fmod_eq_of_canon {x : ℤ} (h : IsCanon x) : fmod x = x :=
  Int.emod_eq_of_lt h.1 h.2

lemma cast_fmod (x : ℤ) : ((fmod x : ℤ) : Fp) = (x : Fp) := by
  rw [ZMod.intCast_eq_intCast_iff]
  exact Int.emod_emod_of_dvd x dvd_rfl

lemma cast_inj_of_canon {a b : ℤ} (ha : IsCanon a) (hb : IsCanon b)
    (h : (a : Fp) = (b : Fp)) : a = b := by
  rw [ZMod.intCast_eq_intCast_iff] at h
  have h2 : a % (bn_254_fp : ℤ) = b % (bn_254_fp : ℤ) := h
  rwa [Int.emod_eq_of_lt ha.1 ha.2, Int.emod_eq_of_lt hb.1 hb.2] at h2

lemma canon_zero : IsCanon 0 := ⟨le_refl 0, bn_254_fp_int_pos⟩

lemma cast_eq_zero_of_canon {a : ℤ} (ha : IsCanon a) :
    (a : Fp) = 0 ↔ a = 0 := by
  constructor
  · intro h
    exact cast_inj_of_canon ha canon_zero (by simpa using h)
  · intro h; simp [h]

lemma interpAux_eq_addRootAux (root : ℤ) (prev : ℤ) (P : List ℤ) :
    interpAux root prev P = addRootAux root prev P := by
  induction P generalizing prev with
  | nil => rfl
  | cons c rest ih => simp [interpAux, addRootAux, ih]

/-- interpolatePolynomial is literally the fold of addRoot starting from [1]. -/
lemma interpolate_eq_foldl_addRoot (roots : List ℤ) :
    interpolatePolynomial roots = roots.foldl addRoot [1] := by
  unfold interpolatePolynomial addRoot
  congr 1
  funext polynomial root
  exact interpAux_eq_addRootAux root 0 polynomial

lemma castList_nil : castList [] = [] := rfl

lemma castList_cons (c : ℤ) (rest : List ℤ) :
    castList (c :: rest) = (c : Fp) :: castList rest := rfl

lemma castList_append (P Q : List ℤ) :
    castList (P ++ Q) = castList P ++ castList Q := by
  induction P with
  | nil => rfl
  | cons c rest ih => simp [castList_cons, ih]

lemma map_cast_addRootAux (r prev : ℤ) (P : List ℤ) :
    castList (addRootAux r prev P) =
      addRootAuxF (r : Fp) (prev : Fp) (castList P) := by
  induction P generalizing prev with
  | nil => simp [addRootAux, addRootAuxF, castList]
  | cons c rest ih =>
      have hhead : ((fmod (prev - fmod (c * r)) : ℤ) : Fp) =
          (prev : Fp) - (c : Fp) * (r : Fp) := by
        rw [cast_fmod]
        push_cast [cast_fmod]
        ring
      have hprev : ((fmod (0 + c) : ℤ) : Fp) = (c : Fp) := by
        rw [cast_fmod]
        push_cast
        ring
      simp only [addRootAux, addRootAuxF, castList_cons, ih, hhead, hprev]

lemma hornerF_addRootAuxF (r prev x : Fp) (Q : List Fp) :
    hornerF x (addRootAuxF r prev Q) = prev + (x - r) * hornerF x Q := by
  induction Q generalizing prev with
  | nil => simp [addRootAuxF, hornerF]
  | cons c rest ih =>
      simp only [addRootAuxF, hornerF, ih]
      ring

lemma hornerF_addRoot (P : List ℤ) (r : ℤ) (x : Fp) :
    hornerF x (castList (addRoot P r)) =
      (x - (r : Fp)) * hornerF x (castList P) := by
  unfold addRoot
  rw [map_cast_addRootAux, hornerF_addRootAuxF]
  push_cast
  ring

lemma hornerF_foldl_addRoot (rs : List ℤ) (P : List ℤ) (x : Fp) :
    hornerF x (castList (rs.foldl addRoot P)) =
      hornerF x (castList P) * (rs.map (fun s : ℤ => x - (s : Fp))).prod := by
  induction rs generalizing P with
  | nil => simp
  | cons s rest ih =>
      simp only [List.foldl_cons, List.map_cons, List.prod_cons]
      rw [ih, hornerF_addRoot]
      ring

/-- Cast of the evaluation loop: the accumulated result is
result + rootPower · (Horner value of the remaining coefficients). -/
lemma cast_verifyAux (root result rootPower : ℤ) (P : List ℤ) :
    ((verifyAux root result rootPower P : ℤ) : Fp) =
      (result : Fp) + (rootPower : Fp) * hornerF (root : Fp) (castList P) := by
  induction P generalizing result rootPower with
  | nil => simp [verifyAux, hornerF, castList]
  | cons c rest ih =>
      simp only [verifyAux, castList_cons, hornerF, ih, cast_fmod]
      push_cast [cast_fmod]
      ring

lemma verifyAux_canon (root : ℤ) {result : ℤ} (h : IsCanon result)
    (rootPower : ℤ) (P : List ℤ) : IsCanon (verifyAux root result rootPower P) := by
  induction P generalizing result rootPower with
  | nil => exact h
  | cons c rest ih => exact ih (fmod_isCanon _) _

lemma evaluatePoly_canon (P : List ℤ) (r : ℤ) : IsCanon (evaluatePoly P r) :=
  verifyAux_canon r canon_zero 1 P

lemma cast_evaluatePoly (P : List ℤ) (r : ℤ) :
    ((evaluatePoly P r : ℤ) : Fp) = hornerF (r : Fp) (castList P) := by
  unfold evaluatePoly
  rw [cast_verifyAux]
  push_cast
  ring

lemma evaluatePoly_eq_zero_iff (P : List ℤ) (r : ℤ) :
    evaluatePoly P r = 0 ↔ hornerF (r : Fp) (castList P) = 0 := by
  rw [← cast_evaluatePoly]
  exact (cast_eq_zero_of_canon (evaluatePoly_canon P r)).symm

/-! ### Analysis of the synthetic-division loop -/

lemma fmod_fmod (x : ℤ) : fmod (fmod x) = fmod x :=
  Int.emod_emod_of_dvd x dvd_rfl

lemma fmod_add_fmod (a b : ℤ) : fmod (fmod a + fmod b) = fmod (a + b) :=
  (Int.add_emod a b (bn_254_fp : ℤ)).symm

lemma synthDivRev_cons_cons (r carry c : ℤ) (rest : List ℤ) (h : rest ≠ []) :
    synthDivRev r carry (c :: rest) =
      (synthDivRev r (fmod (fmod (c + carry) * r)) rest).map
        (fun q => fmod (c + carry) :: q) := by
  cases rest with
  | nil => exact absurd rfl h
  | cons d t => rfl

lemma synthDivRev_append_last (r carry : ℤ) (xs : List ℤ) (y : ℤ) :
    synthDivRev r carry (xs ++ [y]) =
      if fmod (y + (synthRun r carry xs).2) ≠ 0 then none
      else some (synthRun r carry xs).1 := by
  induction xs generalizing carry with
  | nil => simp [synthDivRev, synthRun]
  | cons c xs ih =>
      rw [List.cons_append, synthDivRev_cons_cons r carry c (xs ++ [y]) (by simp),
        ih]
      by_cases hz : fmod (y + (synthRun r (fmod (fmod (c + carry) * r)) xs).2) = 0 <;>
        simp [synthRun, hz]

lemma synthRun_append_last (r carry : ℤ) (xs : List ℤ) (y : ℤ) :
    synthRun r carry (xs ++ [y]) =
      ((synthRun r carry xs).1 ++ [fmod (y + (synthRun r carry xs).2)],
        fmod (fmod (y + (synthRun r carry xs).2) * r)) := by
  induction xs generalizing carry with
  | nil => simp [synthRun]
  | cons c xs ih => simp [synthRun, ih]

lemma addRootAux_length (r prev : ℤ) (P : List ℤ) :
    (addRootAux r prev P).length = P.length + 1 := by
  induction P generalizing prev with
  | nil => rfl
  | cons c rest ih => simp [addRootAux, ih]

/-- Running the quotient phase over the reverse of an addRootAux image recovers
the original (canonical) coefficients, highest degree first. -/
lemma synthRun_addRootAux (r : ℤ) (cs : List ℤ) (hc : ∀ c ∈ cs, IsCanon c)
    (prev : ℤ) :
    synthRun r 0 ((addRootAux r prev cs).reverse) =
      (cs.reverse ++ [fmod prev], fmod (fmod prev * r)) := by
  induction cs generalizing prev with
  | nil =>
      simp [addRootAux, synthRun]
  | cons c rest ih =>
      have hcanc : IsCanon c := hc c (by simp)
      have hrest : ∀ x ∈ rest, IsCanon x := fun x hx => hc x (by simp [hx])
      rw [addRootAux, List.reverse_cons, synthRun_append_last,
        ih hrest (fmod (0 + c))]
      have h1 : fmod (fmod c) = c := by
        rw [fmod_fmod]
        exact fmod_eq_of_canon hcanc
      have h2 : fmod (fmod (prev - fmod (c * r)) + fmod (c * r)) = fmod prev := by
        rw [fmod_add_fmod]
        have hdecomp : prev - c * r % (bn_254_fp : ℤ) + c * r =
            prev + (bn_254_fp : ℤ) * (c * r / (bn_254_fp : ℤ)) := by
          rw [Int.emod_def]
          ring
        unfold fmod
        rw [hdecomp, Int.add_mul_emod_self_left]
      simp [h1, h2]

lemma cast_synthRun_carry (r carry : ℤ) (xs : List ℤ) :
    (((synthRun r carry xs).2 : ℤ) : Fp) = carryF (r : Fp) (carry : Fp) (castList xs) := by
  induction xs generalizing carry with
  | nil => simp [synthRun, carryF, castList]
  | cons d rest ih =>
      have hcast : ((fmod (fmod (d + carry) * r) : ℤ) : Fp) =
          ((d : Fp) + (carry : Fp)) * (r : Fp) := by
        rw [cast_fmod]
        push_cast [cast_fmod]
        ring
      simp only [synthRun, castList_cons, carryF, ih, hcast]

lemma carryF_append (r carry : Fp) (xs ys : List Fp) :
    carryF r carry (xs ++ ys) = carryF r (carryF r carry xs) ys := by
  induction xs generalizing carry with
  | nil => rfl
  | cons d rest ih => simp [carryF, ih]

lemma carryF_reverse (r carry : Fp) (Q : List Fp) :
    carryF r carry Q.reverse = r * hornerF r Q + carry * r ^ Q.length := by
  induction Q generalizing carry with
  | nil => simp [carryF, hornerF]
  | cons q rest ih =>
      rw [List.reverse_cons, carryF_append, ih]
      simp only [carryF, hornerF, List.length_cons]
      ring

lemma castList_length (P : List ℤ) : (castList P).length = P.length := by
  induction P with
  | nil => rfl
  | cons c rest ih => simp [castList_cons, ih]

lemma castList_reverse (P : List ℤ) : castList P.reverse = (castList P).reverse := by
  induction P with
  | nil => rfl
  | cons c rest ih => simp [castList_cons, castList_nil, castList_append, ih]

/-- The remainder computed by the synthetic-division loop on c :: cs is, in the
field, exactly the Horner evaluation of the polynomial at r. -/
lemma remainder_eq_eval (r c : ℤ) (cs : List ℤ) :
    ((fmod (c + (synthRun r 0 cs.reverse).2) : ℤ) : Fp) =
      hornerF (r : Fp) (castList (c :: cs)) := by
  rw [cast_fmod]
  push_cast [cast_synthRun_carry]
  rw [castList_reverse, carryF_reverse]
  simp [hornerF, castList_cons]

lemma fmod_sub_add_cancel (a b : ℤ) :
    fmod (fmod (a - fmod b) + fmod b) = fmod a := by
  rw [fmod_add_fmod]
  have hdecomp : a - b % (bn_254_fp : ℤ) + b =
      a + (bn_254_fp : ℤ) * (b / (bn_254_fp : ℤ)) := by
    rw [Int.emod_def]
    ring

  unfold fmod
  rw [hdecomp, Int.add_mul_emod_self_left]

/-- Sanity check matching the concrete scenario of the spec: the polynomial
with roots 1, 2, 3 has coefficients [-6, 11, -6, 1] reduced mod p. -/
example : interpolatePolynomial [1, 2, 3] =
    [21888242871839275222246405745257275088548364400416034343698204186575808495611,
      11,
      21888242871839275222246405745257275088548364400416034343698204186575808495611,
      1] := by decide

example : verifyPolynomial (interpolatePolynomial [1, 2, 3]) 4 = false := by decide

example : removeRoot (interpolatePolynomial [5]) 5 = .ok [1] := by decide

/-! ## Claims C2, C3, C4, C8: the polynomial laws -/

/-- C2, counterexample to the claim as stated: for the empty coefficient list,
removeRoot (addRoot P r) r does not succeed; addRoot [] r is the length-one
list [0], on which removeRoot throws the degree-too-low error instead of
returning []. -/
theorem claim_C2_counterexample :
    removeRoot (addRoot ([] : List ℤ) 5) 5 = .error .degreeTooLow ∧
      (Except.error RemoveRootError.degreeTooLow : Except RemoveRootError (List ℤ)) ≠
        Except.ok [] := by
  exact ⟨rfl, by simp⟩

/-- C2 (amended: P must be non-empty; its entries are canonical field
elements): for every non-empty list P of canonical field elements and every
integer r, removeRoot (addRoot P r) r succeeds and returns P
coefficient-by-coefficient. -/
theorem claim_C2_amended (P : List ℤ) (r : ℤ) (hne : P ≠ [])
    (hcanon : ∀ c ∈ P, IsCanon c) :
    removeRoot (addRoot P r) r = .ok P := by
  cases P with
  | nil => exact absurd rfl hne
  | cons c cs =>
      have hcanc : IsCanon c := hcanon c (by simp)
      have hcs : ∀ x ∈ cs, IsCanon x := fun x hx => hcanon x (by simp [hx])
      have hc1 : fmod (fmod (0 + c)) = c := by
        rw [zero_add, fmod_fmod]
        exact fmod_eq_of_canon hcanc
      have hlen : ¬ (addRoot (c :: cs) r).length ≤ 1 := by
        rw [addRoot, addRootAux_length]
        simp
      have hA : (addRoot (c :: cs) r).reverse =
          (addRootAux r (fmod (0 + c)) cs).reverse ++ [fmod (0 - fmod (c * r))] := by
        rw [addRoot,
          show addRootAux r 0 (c :: cs) =
            fmod (0 - fmod (c * r)) :: addRootAux r (fmod (0 + c)) cs from rfl,
          List.reverse_cons]
      have hdiv : synthDivRev r 0 ((addRoot (c :: cs) r).reverse) =
          some (cs.reverse ++ [c]) := by
        rw [hA, synthDivRev_append_last, synthRun_addRootAux r cs hcs (fmod (0 + c))]
        simp only [hc1]
        rw [fmod_sub_add_cancel]
        simp [fmod, Int.zero_emod]
      unfold removeRoot
      rw [if_neg hlen, hdiv]
      simp

/-- C2 witness at a concrete input. -/
theorem claim_C2_witness :
    ([1, 5] : List ℤ) ≠ [] ∧ removeRoot (addRoot [1, 5] 3) 3 = .ok [1, 5] :=
  ⟨by decide, claim_C2_amended [1, 5] 3 (by decide) (by decide)⟩

/-- C3: for a polynomial of degree at least 1 (length at least 2), removeRoot
signals NotARoot exactly when the polynomial evaluates to a nonzero value at
the candidate root.  (In the embedding removeRoot is a pure function that
returns only the error, so the input polynomial is trivially unchanged.) -/
theorem claim_C3 (P : List ℤ) (r : ℤ) (hdeg : 2 ≤ P.length) :
    (removeRoot P r = .error .notARoot ↔ evaluatePoly P r ≠ 0) := by
  cases P with
  | nil => simp at hdeg
  | cons c cs =>
      cases cs with
      | nil => simp at hdeg
      | cons d ds =>
          have hlen : ¬ (c :: d :: ds).length ≤ 1 := by simp
          have hiff : fmod (c + (synthRun r 0 (d :: ds).reverse).2) = 0 ↔
              evaluatePoly (c :: d :: ds) r = 0 := by
            rw [evaluatePoly_eq_zero_iff, ← remainder_eq_eval r c (d :: ds)]
            exact (cast_eq_zero_of_canon (fmod_isCanon _)).symm
          rw [List.reverse_cons] at hiff
          unfold removeRoot
          rw [if_neg hlen, List.reverse_cons, synthDivRev_append_last]
          by_cases hz : fmod (c + (synthRun r 0 (ds.reverse ++ [d])).2) = 0
          · simp [hz, hiff.mp hz]
          · have hne : evaluatePoly (c :: d :: ds) r ≠ 0 := fun h => hz (hiff.mpr h)
            simp [hz, hne]

/-- C3 witness at a concrete input. -/
theorem claim_C3_witness :
    2 ≤ ([1, 1] : List ℤ).length ∧
      (removeRoot [1, 1] 0 = .error .notARoot ↔ evaluatePoly [1, 1] 0 ≠ 0) :=
  ⟨by decide, claim_C3 [1, 1] 0 (by decide)⟩

/-- C4: every root fed to interpolatePolynomial is a root of the resulting
polynomial: the evaluation-based check verifyPolynomial accepts it. -/
theorem claim_C4 (rs : List ℤ) (r : ℤ) (hr : r ∈ rs) :
    verifyPolynomial (interpolatePolynomial rs) r = true := by
  simp only [verifyPolynomial, beq_iff_eq]
  rw [evaluatePoly_eq_zero_iff, interpolate_eq_foldl_addRoot, hornerF_foldl_addRoot]
  apply mul_eq_zero_of_right
  apply List.prod_eq_zero
  exact List.mem_map.mpr ⟨r, hr, by simp⟩

/-- C4 witness at a concrete input. -/
theorem claim_C4_witness :
    (2 : ℤ) ∈ ([1, 2, 3] : List ℤ) ∧
      verifyPolynomial (interpolatePolynomial [1, 2, 3]) 2 = true :=
  ⟨by decide, claim_C4 [1, 2, 3] 2 (by decide)⟩

/-- C8: interpolatePolynomial coincides with starting from the polynomial [1]
and applying addRoot once per root, in order. -/
theorem claim_C8 (roots : List ℤ) :
    interpolatePolynomial roots = roots.foldl addRoot initial_polynomial := by
  rw [interpolate_eq_foldl_addRoot]
  rfl

namespace IMT

variable (depth : ℕ) (hashPair : ℤ → ℤ → ℤ) (zeroValue : ℤ)

lemma subtreeHash_out_of_range (leaves : List ℤ) (l j : ℕ)
    (h : leaves.length ≤ 2 ^ l * j) :
    subtreeHash hashPair zeroValue leaves l j = zeroHashes hashPair zeroValue l := by
  induction l generalizing j with
  | zero =>
      have hnone : leaves.get? j = none := List.get?_eq_none.mpr (by simpa using h)
      show (leaves.get? j).getD zeroValue = zeroValue
      rw [hnone]
      rfl
  | succ l ih =>
      have h1 : leaves.length ≤ 2 ^ l * (2 * j) := by
        calc leaves.length ≤ 2 ^ (l + 1) * j := h
        _ = 2 ^ l * (2 * j) := by ring
      have h2 : leaves.length ≤ 2 ^ l * (2 * j + 1) := by
        calc leaves.length ≤ 2 ^ l * (2 * j) := h1
        _ ≤ 2 ^ l * (2 * j + 1) := Nat.mul_le_mul_left _ (by omega)
      simp [subtreeHash, zeroHashes, ih _ h1, ih _ h2]

lemma subtreeHash_congr (L1 L2 : List ℤ) (l j : ℕ)
    (h : ∀ k, 2 ^ l * j ≤ k → k < 2 ^ l * (j + 1) → L1.get? k = L2.get? k) :
    subtreeHash hashPair zeroValue L1 l j = subtreeHash hashPair zeroValue L2 l j := by
  induction l generalizing j with
  | zero =>
      have hj := h j (by simp) (by simp)
      show (L1.get? j).getD zeroValue = (L2.get? j).getD zeroValue
      rw [hj]
  | succ l ih =>
      have hL : ∀ k, 2 ^ l * (2 * j) ≤ k → k < 2 ^ l * (2 * j + 1) → L1.get? k = L2.get? k := by
        intro k hk1 hk2
        refine h k ?_ ?_
        · calc 2 ^ (l + 1) * j = 2 ^ l * (2 * j) := by ring
          _ ≤ k := hk1
        · calc k < 2 ^ l * (2 * j + 1) := hk2
          _ ≤ 2 ^ l * (2 * (j + 1)) := Nat.mul_le_mul_left _ (by omega)
          _ = 2 ^ (l + 1) * (j + 1) := by ring
      have hR : ∀ k, 2 ^ l * (2 * j + 1) ≤ k → k < 2 ^ l * (2 * j + 1 + 1) → L1.get? k = L2.get? k := by
        intro k hk1 hk2
        refine h k ?_ ?_
        · calc 2 ^ (l + 1) * j = 2 ^ l * (2 * j) := by ring
          _ ≤ 2 ^ l * (2 * j + 1) := Nat.mul_le_mul_left _ (by omega)
          _ ≤ k := hk1
        · calc k < 2 ^ l * (2 * j + 1 + 1) := hk2
          _ = 2 ^ (l + 1) * (j + 1) := by ring
      simp [subtreeHash, ih _ hL, ih _ hR]

/-! ### Basic facts about the node map and the path loops -/

lemma getNode_setNode (t : IncrementalMerkleTree) (a b l j : ℕ) (v : ℤ) :
    getNode (setNode t a b v) l j =
      if a = l ∧ b = j then some v else getNode t l j := by
  rw [getNode, setNode]
  by_cases h : a = l ∧ b = j
  · obtain ⟨h1, h2⟩ := h
    subst h1
    subst h2
    rw [List.find?_cons_of_pos _ (by simp)]
    simp
  · rw [List.find?_cons_of_neg _ (by simpa [Prod.ext_iff] using h)]
    rw [if_neg h]
    rfl

lemma getNode_emptyTree (l j : ℕ) : getNode emptyTree l j = none := rfl

lemma setNode_leaves (t : IncrementalMerkleTree) (a b : ℕ) (v : ℤ) :
    (setNode t a b v).leaves = t.leaves := rfl

lemma updatePathGo_leaves (rem : ℕ) :
    ∀ (t : IncrementalMerkleTree) (level ci : ℕ) (ch : ℤ),
      (updatePathGo hashPair zeroValue t level ci ch rem).leaves = t.leaves ∧
        (updatePathGo hashPair zeroValue t level ci ch rem).nextIndex = t.nextIndex := by
  induction rem with
  | zero => intro t level ci ch; exact ⟨rfl, rfl⟩
  | succ rem ih =>
      intro t level ci ch
      rw [updatePathGo]
      exact ih _ _ _ _

/-- The shared one-level hashing step: when the sibling read is correct, the
parent hash computed with the left/right ordering of the loops equals the
intended hash of the parent node. -/
lemma parentHash_ok (t : IncrementalMerkleTree) (level ci : ℕ)
    (hsib : readNodeOrZero hashPair zeroValue t level
        (if ci % 2 = 1 then ci - 1 else ci + 1) =
      subtreeHash hashPair zeroValue t.leaves level
        (if ci % 2 = 1 then ci - 1 else ci + 1)) :
    (if ci % 2 = 1 then
        hashPair
          (readNodeOrZero hashPair zeroValue t level (if ci % 2 = 1 then ci - 1 else ci + 1))
          (subtreeHash hashPair zeroValue t.leaves level ci)
      else
        hashPair (subtreeHash hashPair zeroValue t.leaves level ci)
          (readNodeOrZero hashPair zeroValue t level (if ci % 2 = 1 then ci - 1 else ci + 1))) =
      subtreeHash hashPair zeroValue t.leaves (level + 1) (ci / 2) := by
  have key : ∀ a b : ℕ, a = 2 * (ci / 2) → b = 2 * (ci / 2) + 1 →
      hashPair (subtreeHash hashPair zeroValue t.leaves level a)
          (subtreeHash hashPair zeroValue t.leaves level b) =
        subtreeHash hashPair zeroValue t.leaves (level + 1) (ci / 2) := by
    intro a b ha hb
    subst ha
    subst hb
    rfl
  by_cases hodd : ci % 2 = 1
  · simp only [if_pos hodd] at hsib ⊢
    rw [hsib]
    exact key _ _ (by omega) (by omega)
  · simp only [if_neg hodd] at hsib ⊢
    rw [hsib]
    exact key _ _ (by omega) (by omega)

lemma updatePathGo_succ (t : IncrementalMerkleTree) (level ci : ℕ) (ch : ℤ) (rem : ℕ) :
    updatePathGo hashPair zeroValue t level ci ch (rem + 1) =
      updatePathGo hashPair zeroValue
        (setNode t (level + 1) (ci / 2)
          (if ci % 2 = 1 then
            hashPair
              (readNodeOrZero hashPair zeroValue t level (if ci % 2 = 1 then ci - 1 else ci + 1)) ch
          else
            hashPair ch
              (readNodeOrZero hashPair zeroValue t level (if ci % 2 = 1 then ci - 1 else ci + 1))))
        (level + 1) (ci / 2)
        (if ci % 2 = 1 then
          hashPair
            (readNodeOrZero hashPair zeroValue t level (if ci % 2 = 1 then ci - 1 else ci + 1)) ch
        else
          hashPair ch
            (readNodeOrZero hashPair zeroValue t level (if ci % 2 = 1 then ci - 1 else ci + 1)))
        rem := rfl

/-- Core invariant-restoration lemma for updatePath: starting at some level
with current index i0 / 2^level and current hash equal to the intended hash
of that node, and with every read correct outside the strict ancestors of i0
above the current level, running the remaining depth - level iterations makes
every internal read correct. -/
lemma updatePathGo_nodesOK :
    ∀ (rem level : ℕ) (t : IncrementalMerkleTree) (i0 : ℕ),
      level + rem = depth →
      (∀ l j, 1 ≤ l → l ≤ depth → (l ≤ level ∨ j ≠ i0 / 2 ^ l) →
        (getNode t l j).getD (zeroHashes hashPair zeroValue l) =
          subtreeHash hashPair zeroValue t.leaves l j) →
      NodesOK depth hashPair zeroValue
        (updatePathGo hashPair zeroValue t level (i0 / 2 ^ level)
          (subtreeHash hashPair zeroValue t.leaves level (i0 / 2 ^ level)) rem) := by
  intro rem
  induction rem with
  | zero =>
      intro level t i0 hlevel hpre
      intro l j h1 h2
      rw [updatePathGo]
      exact hpre l j h1 h2 (Or.inl (by omega))
  | succ rem ih =>
      intro level t i0 hlevel hpre
      rw [updatePathGo_succ]
      have hlevle : level ≤ depth := by omega
      have hsib : readNodeOrZero hashPair zeroValue t level
          (if i0 / 2 ^ level % 2 = 1 then i0 / 2 ^ level - 1 else i0 / 2 ^ level + 1) =
          subtreeHash hashPair zeroValue t.leaves level
            (if i0 / 2 ^ level % 2 = 1 then i0 / 2 ^ level - 1 else i0 / 2 ^ level + 1) := by
        rw [readNodeOrZero]
        by_cases hl0 : level = 0
        · subst hl0
          rw [if_pos rfl]
          rfl
        · rw [if_neg hl0]
          exact hpre level _ (by omega) hlevle (Or.inl (le_refl level))
      have hparent := parentHash_ok hashPair zeroValue t level (i0 / 2 ^ level) hsib
      have hdiv : i0 / 2 ^ (level + 1) = i0 / 2 ^ level / 2 := by
        rw [Nat.div_div_eq_div_mul, pow_succ]
      have hpre' : ∀ l j, 1 ≤ l → l ≤ depth → (l ≤ level + 1 ∨ j ≠ i0 / 2 ^ l) →
          (getNode
              (setNode t (level + 1) (i0 / 2 ^ level / 2)
                (subtreeHash hashPair zeroValue t.leaves (level + 1) (i0 / 2 ^ level / 2)))
              l j).getD (zeroHashes hashPair zeroValue l) =
            subtreeHash hashPair zeroValue
              (setNode t (level + 1) (i0 / 2 ^ level / 2)
                (subtreeHash hashPair zeroValue t.leaves (level + 1) (i0 / 2 ^ level / 2))).leaves
              l j := by
        intro l j h1 h2 h3
        rw [getNode_setNode]
        by_cases heq : level + 1 = l ∧ i0 / 2 ^ level / 2 = j
        · rw [if_pos heq]
          obtain ⟨hl, hj⟩ := heq
          subst hl
          subst hj
          rfl
        · rw [if_neg heq]
          apply hpre l j h1 h2
          rcases h3 with h3 | h3
          · by_cases hll : l = level + 1
            · right
              intro hjj
              apply heq
              refine ⟨hll.symm, ?_⟩
              rw [← hdiv, ← hll, ← hjj]
            · left
              omega
          · right
            exact h3
      have hmain := ih (level + 1)
        (setNode t (level + 1) (i0 / 2 ^ level / 2)
          (subtreeHash hashPair zeroValue t.leaves (level + 1) (i0 / 2 ^ level / 2)))
        i0 (by omega) hpre'
      simp only [setNode_leaves] at hmain
      rw [hdiv] at hmain
      rw [← hparent] at hmain
      exact hmain

lemma goodTree_empty : GoodTree depth hashPair zeroValue emptyTree := by
  refine ⟨rfl, Nat.zero_le _, ?_⟩
  intro l j h1 h2
  rw [getNode_emptyTree]
  rw [subtreeHash_out_of_range hashPair zeroValue _ l j (by simp [emptyTree])]
  rfl

lemma setLeaf_get?_ne (leaves : List ℤ) (i : ℕ) (x : ℤ) (hi : i ≤ leaves.length)
    (k : ℕ) (hk : k ≠ i) :
    (setLeaf leaves i x).get? k = leaves.get? k := by
  rw [setLeaf]
  by_cases h : i < leaves.length
  · rw [if_pos h]
    exact List.get?_set_ne x leaves (fun hh => hk hh.symm)
  · rw [if_neg h]
    by_cases hlt : k < leaves.length
    · exact List.get?_append hlt
    · have hlapp : (leaves ++ [x]).length = leaves.length + 1 := by simp
      rw [List.get?_eq_none.mpr (by omega), List.get?_eq_none.mpr (by omega)]

lemma setLeaf_get?_self (leaves : List ℤ) (i : ℕ) (x : ℤ) (hi : i ≤ leaves.length) :
    (setLeaf leaves i x).get? i = some x := by
  rw [setLeaf]
  by_cases h : i < leaves.length
  · rw [if_pos h]
    exact List.get?_set_eq_of_lt x h
  · rw [if_neg h]
    have : i = leaves.length := by omega
    rw [this]
    exact List.get?_concat_length leaves x

lemma setLeaf_length_append (leaves : List ℤ) (x : ℤ) :
    setLeaf leaves leaves.length x = leaves ++ [x] := by
  rw [setLeaf, if_neg (by omega)]

/-- Replacing the leaf at index i does not change the intended hash of any
subtree not containing i. -/
lemma subtreeHash_setLeaf_ne (leaves : List ℤ) (i : ℕ) (x : ℤ)
    (hi : i ≤ leaves.length) (l j : ℕ) (hj : j ≠ i / 2 ^ l) :
    subtreeHash hashPair zeroValue (setLeaf leaves i x) l j =
      subtreeHash hashPair zeroValue leaves l j := by
  apply subtreeHash_congr
  intro k hk1 hk2
  apply setLeaf_get?_ne leaves i x hi
  intro hki
  subst hki
  exact hj (Nat.div_eq_of_lt_le (by rwa [mul_comm] at hk1) (by rwa [mul_comm] at hk2)).symm

/-- Shape of a successful insert, independent of the node invariant. -/
lemma insert_shape (t : IncrementalMerkleTree) (leaf : ℤ)
    (hlen : t.leaves.length = t.nextIndex) (hlt : t.nextIndex < 2 ^ depth) :
    insert depth hashPair zeroValue t leaf =
      .ok (t.nextIndex,
        { updatePath depth hashPair zeroValue
            { t with leaves := t.leaves ++ [leaf] } t.nextIndex with
          nextIndex := t.nextIndex + 1 }) := by
  rw [insert, if_neg (by rw [MAX_LEAVES]; omega)]
  show Except.ok
      (t.nextIndex,
        { updatePath depth hashPair zeroValue
            { t with leaves := setLeaf t.leaves t.nextIndex leaf } t.nextIndex with
          nextIndex := t.nextIndex + 1 }) = _
  rw [show setLeaf t.leaves t.nextIndex leaf = t.leaves ++ [leaf] by
    rw [← hlen, setLeaf_length_append]]

/-- A successful insert preserves the invariant and appends the leaf. -/
lemma insert_ok (t : IncrementalMerkleTree) (leaf : ℤ)
    (hg : GoodTree depth hashPair zeroValue t) (hlt : t.nextIndex < 2 ^ depth) :
    ∃ t', insert depth hashPair zeroValue t leaf = .ok (t.nextIndex, t') ∧
      GoodTree depth hashPair zeroValue t' ∧
      t'.leaves = t.leaves ++ [leaf] ∧ t'.nextIndex = t.nextIndex + 1 := by
  obtain ⟨hlen, _hcap, hok⟩ := hg
  refine ⟨_, insert_shape depth hashPair zeroValue t leaf hlen hlt, ?_, ?_, rfl⟩
  · have hnok : NodesOK depth hashPair zeroValue
        (updatePath depth hashPair zeroValue
          { t with leaves := t.leaves ++ [leaf] } t.nextIndex) := by
      have hpre : ∀ l j, 1 ≤ l → l ≤ depth → (l ≤ 0 ∨ j ≠ t.nextIndex / 2 ^ l) →
          (getNode { t with leaves := t.leaves ++ [leaf] } l j).getD
              (zeroHashes hashPair zeroValue l) =
            subtreeHash hashPair zeroValue
              ({ t with leaves := t.leaves ++ [leaf] } :
                IncrementalMerkleTree).leaves l j := by
        intro l j h1 h2 h3
        rcases h3 with h3 | h3
        · omega
        · have hnodes : getNode { t with leaves := t.leaves ++ [leaf] } l j =
              getNode t l j := rfl
          rw [hnodes, hok l j h1 h2]
          have h4 := subtreeHash_setLeaf_ne hashPair zeroValue t.leaves
            t.nextIndex leaf (by omega) l j h3
          rw [← hlen, setLeaf_length_append] at h4
          exact h4.symm
      have hthis := updatePathGo_nodesOK depth hashPair zeroValue depth 0
        { t with leaves := t.leaves ++ [leaf] } t.nextIndex (by omega) hpre
      rw [pow_zero, Nat.div_one] at hthis
      rw [updatePath]
      exact hthis
    refine ⟨?_, ?_, ?_⟩
    · show (updatePath depth hashPair zeroValue
          { t with leaves := t.leaves ++ [leaf] } t.nextIndex).leaves.length =
        t.nextIndex + 1
      rw [updatePath, (updatePathGo_leaves hashPair zeroValue depth _ _ _ _).1]
      simp [hlen]
    · show t.nextIndex + 1 ≤ 2 ^ depth
      omega
    · intro l j h1 h2
      exact hnok l j h1 h2
  · show (updatePath depth hashPair zeroValue
        { t with leaves := t.leaves ++ [leaf] } t.nextIndex).leaves =
      t.leaves ++ [leaf]
    rw [updatePath, (updatePathGo_leaves hashPair zeroValue depth _ _ _ _).1]

/-- A successful update preserves the invariant and replaces the leaf. -/
lemma update_ok (t : IncrementalMerkleTree) (i : ℕ) (x : ℤ)
    (hg : GoodTree depth hashPair zeroValue t) (hi : i < t.nextIndex) :
    ∃ t', update depth hashPair zeroValue t i x = .ok t' ∧
      GoodTree depth hashPair zeroValue t' ∧
      t'.leaves = t.leaves.set i x ∧ t'.nextIndex = t.nextIndex := by
  obtain ⟨hlen, hcap, hok⟩ := hg
  have hix : i < t.leaves.length := by omega
  have hset : setLeaf t.leaves i x = t.leaves.set i x := by rw [setLeaf, if_pos hix]
  have hshape : update depth hashPair zeroValue t i x =
      .ok (updatePath depth hashPair zeroValue { t with leaves := t.leaves.set i x } i) := by
    rw [update, if_neg (by omega)]
    show Except.ok
        (updatePath depth hashPair zeroValue
          { t with leaves := setLeaf t.leaves i x } i) = _
    rw [hset]
  refine ⟨_, hshape, ⟨?_, ?_, ?_⟩, ?_, ?_⟩
  · show (updatePath depth hashPair zeroValue
        { t with leaves := t.leaves.set i x } i).leaves.length =
      (updatePath depth hashPair zeroValue
        { t with leaves := t.leaves.set i x } i).nextIndex
    rw [updatePath, (updatePathGo_leaves hashPair zeroValue depth _ _ _ _).1,
      (updatePathGo_leaves hashPair zeroValue depth _ _ _ _).2]
    simp [hlen]
  · show (updatePath depth hashPair zeroValue
        { t with leaves := t.leaves.set i x } i).nextIndex ≤ 2 ^ depth
    rw [updatePath, (updatePathGo_leaves hashPair zeroValue depth _ _ _ _).2]
    exact hcap
  · have hpre : ∀ l j, 1 ≤ l → l ≤ depth → (l ≤ 0 ∨ j ≠ i / 2 ^ l) →
        (getNode { t with leaves := t.leaves.set i x } l j).getD
            (zeroHashes hashPair zeroValue l) =
          subtreeHash hashPair zeroValue
            ({ t with leaves := t.leaves.set i x } :
              IncrementalMerkleTree).leaves l j := by
      intro l j h1 h2 h3
      rcases h3 with h3 | h3
      · omega
      · have hnodes : getNode { t with leaves := t.leaves.set i x } l j =
            getNode t l j := rfl
        rw [hnodes, hok l j h1 h2]
        have h4 := subtreeHash_setLeaf_ne hashPair zeroValue t.leaves i x
          (by omega) l j h3
        rw [hset] at h4
        exact h4.symm
    have hthis := updatePathGo_nodesOK depth hashPair zeroValue depth 0
      { t with leaves := t.leaves.set i x } i (by omega) hpre
    rw [pow_zero, Nat.div_one] at hthis
    intro l j h1 h2
    rw [updatePath]
    exact hthis l j h1 h2
  · show (updatePath depth hashPair zeroValue
        { t with leaves := t.leaves.set i x } i).leaves = t.leaves.set i x
    rw [updatePath, (updatePathGo_leaves hashPair zeroValue depth _ _ _ _).1]
  · show (updatePath depth hashPair zeroValue
        { t with leaves := t.leaves.set i x } i).nextIndex = t.nextIndex
    rw [updatePath, (updatePathGo_leaves hashPair zeroValue depth _ _ _ _).2]

/-- For a well-formed tree the root is the intended hash of the whole tree. -/
lemma getRoot_eq (t : IncrementalMerkleTree) (hd : 1 ≤ depth)
    (hg : GoodTree depth hashPair zeroValue t) :
    getRoot depth hashPair zeroValue t =
      subtreeHash hashPair zeroValue t.leaves depth 0 := by
  obtain ⟨hlen, _hcap, hok⟩ := hg
  by_cases h0 : t.nextIndex = 0
  · rw [getRoot, if_pos h0]
    rw [subtreeHash_out_of_range hashPair zeroValue _ depth 0 (by simp [hlen, h0])]
  · rw [getRoot, if_neg h0]
    exact hok depth 0 hd (le_refl depth)

/-- Inserting a list within capacity succeeds and appends all the leaves. -/
lemma insertList_ok (ls : List ℤ) : ∀ (t : IncrementalMerkleTree),
    GoodTree depth hashPair zeroValue t → t.nextIndex + ls.length ≤ 2 ^ depth →
    ∃ t', insertList depth hashPair zeroValue t ls = .ok t' ∧
      GoodTree depth hashPair zeroValue t' ∧ t'.leaves = t.leaves ++ ls ∧
      t'.nextIndex = t.nextIndex + ls.length := by
  induction ls with
  | nil =>
      intro t hg _hcap
      exact ⟨t, rfl, hg, by simp, by simp⟩
  | cons x rest ih =>
      intro t hg hcap
      obtain ⟨t1, hins, hg1, hleaves1, hnext1⟩ :=
        insert_ok depth hashPair zeroValue t x hg (by simp at hcap; omega)
      obtain ⟨t', hrest, hg', hleaves', hnext'⟩ := ih t1 hg1 (by
        rw [hnext1]
        simp at hcap
        omega)
      refine ⟨t', ?_, hg', ?_, ?_⟩
      · rw [insertList, hins]
        exact hrest
      · rw [hleaves', hleaves1]
        simp
      · rw [hnext', hnext1]
        simp
        omega

/-! ### The Merkle path loop and the verifier loop -/

lemma getMerklePathGo_succ (t : IncrementalMerkleTree) (level ci : ℕ)
    (path bits : List ℤ) (rem : ℕ) :
    getMerklePathGo hashPair zeroValue t level ci path bits (rem + 1) =
      getMerklePathGo hashPair zeroValue t (level + 1) (ci / 2)
        (path ++ [readNodeOrZero hashPair zeroValue t level
          (if ci % 2 = 1 then ci - 1 else ci + 1)])
        (bits ++ [if ci % 2 = 1 then (1 : ℤ) else 0]) rem := rfl

lemma getMerklePathGo_acc (t : IncrementalMerkleTree) :
    ∀ (rem level ci : ℕ) (path bits : List ℤ),
      getMerklePathGo hashPair zeroValue t level ci path bits rem =
        (path ++ (getMerklePathGo hashPair zeroValue t level ci [] [] rem).1,
          bits ++ (getMerklePathGo hashPair zeroValue t level ci [] [] rem).2) := by
  intro rem
  induction rem with
  | zero =>
      intro level ci path bits
      simp [getMerklePathGo]
  | succ rem ih =>
      intro level ci path bits
      rw [getMerklePathGo_succ, getMerklePathGo_succ, ih (level + 1) (ci / 2),
        ih (level + 1) (ci / 2) ([] ++ _)]
      simp

lemma getMerklePathGo_len (t : IncrementalMerkleTree) :
    ∀ (rem level ci : ℕ),
      (getMerklePathGo hashPair zeroValue t level ci [] [] rem).1.length = rem ∧
        (getMerklePathGo hashPair zeroValue t level ci [] [] rem).2.length = rem := by
  intro rem
  induction rem with
  | zero => intro level ci; exact ⟨rfl, rfl⟩
  | succ rem ih =>
      intro level ci
      rw [getMerklePathGo_succ, getMerklePathGo_acc]
      constructor
      · simp [(ih (level + 1) (ci / 2)).1]
      · simp [(ih (level + 1) (ci / 2)).2]

lemma computeRootGo_cons (ch s b : ℤ) (ps bs : List ℤ) :
    computeRootGo hashPair ch (s :: ps) (b :: bs) =
      computeRootGo hashPair (if b = 1 then hashPair s ch else hashPair ch s) ps bs := rfl

/-- Replaying the extracted path from the intended hash of the starting node
reproduces the intended hash of the ancestor depth - level levels up. -/
lemma computeRootGo_spec (t : IncrementalMerkleTree)
    (hok : NodesOK depth hashPair zeroValue t) :
    ∀ (rem level ci : ℕ), level + rem = depth →
      computeRootGo hashPair
          (subtreeHash hashPair zeroValue t.leaves level ci)
          (getMerklePathGo hashPair zeroValue t level ci [] [] rem).1
          (getMerklePathGo hashPair zeroValue t level ci [] [] rem).2 =
        subtreeHash hashPair zeroValue t.leaves depth (ci / 2 ^ rem) := by
  intro rem
  induction rem with
  | zero =>
      intro level ci hlevel
      subst hlevel
      simp [getMerklePathGo, computeRootGo]
  | succ rem ih =>
      intro level ci hlevel
      rw [getMerklePathGo_succ, getMerklePathGo_acc]
      simp only [List.nil_append, List.singleton_append, List.cons_append]
      rw [computeRootGo_cons]
      have hsib : readNodeOrZero hashPair zeroValue t level
          (if ci % 2 = 1 then ci - 1 else ci + 1) =
          subtreeHash hashPair zeroValue t.leaves level
            (if ci % 2 = 1 then ci - 1 else ci + 1) := by
        rw [readNodeOrZero]
        by_cases hl0 : level = 0
        · subst hl0
          rw [if_pos rfl]
          rfl
        · rw [if_neg hl0]
          exact hok level _ (by omega) (by omega)
      have hparent := parentHash_ok hashPair zeroValue t level ci hsib
      have hb : (if (if ci % 2 = 1 then (1 : ℤ) else 0) = 1 then
          hashPair (readNodeOrZero hashPair zeroValue t level
            (if ci % 2 = 1 then ci - 1 else ci + 1))
            (subtreeHash hashPair zeroValue t.leaves level ci)
        else
          hashPair (subtreeHash hashPair zeroValue t.leaves level ci)
            (readNodeOrZero hashPair zeroValue t level
              (if ci % 2 = 1 then ci - 1 else ci + 1))) =
          subtreeHash hashPair zeroValue t.leaves (level + 1) (ci / 2) := by
        by_cases hodd : ci % 2 = 1
        · simp only [if_pos hodd] at hparent ⊢
          simpa using hparent
        · simp only [if_neg hodd] at hparent ⊢
          simpa using hparent
      rw [hb]
      have := ih (level + 1) (ci / 2) (by omega)
      rw [this, Nat.div_div_eq_div_mul, ← pow_succ']

/-- The direction bits extracted by getMerklePath read back, little-endian, as
the starting index modulo 2 ^ rem. -/
lemma reconstructGo_spec (t : IncrementalMerkleTree) :
    ∀ (rem level ci : ℕ) (acc pow : ℤ),
      reconstructGo acc pow (getMerklePathGo hashPair zeroValue t level ci [] [] rem).2 =
        acc + pow * ((ci % 2 ^ rem : ℕ) : ℤ) := by
  intro rem
  induction rem with
  | zero =>
      intro level ci acc pow
      simp [getMerklePathGo, reconstructGo]
  | succ rem ih =>
      intro level ci acc pow
      rw [getMerklePathGo_succ, getMerklePathGo_acc]
      simp only [List.nil_append, List.singleton_append]
      rw [show reconstructGo acc pow
          ((if ci % 2 = 1 then (1 : ℤ) else 0) ::
            (getMerklePathGo hashPair zeroValue t (level + 1) (ci / 2) [] [] rem).2) =
          reconstructGo (acc + (if ci % 2 = 1 then (1 : ℤ) else 0) * pow) (pow * 2)
            ((getMerklePathGo hashPair zeroValue t (level + 1) (ci / 2) [] [] rem).2) from rfl]
      rw [ih (level + 1) (ci / 2)]
      have hmod : (ci % 2 ^ (rem + 1) : ℕ) = ci % 2 + 2 * (ci / 2 % 2 ^ rem) := by
        rw [pow_succ, mul_comm (2 ^ rem) 2, Nat.mod_mul]
      have hbit : (if ci % 2 = 1 then (1 : ℤ) else 0) = ((ci % 2 : ℕ) : ℤ) := by
        by_cases hodd : ci % 2 = 1
        · simp [hodd]
        · have : ci % 2 = 0 := by omega
          simp [hodd, this]
      rw [hmod, hbit]
      push_cast
      ring

/-- The last write of the update loop stores the ancestor at the top level. -/
lemma updatePathGo_written :
    ∀ (rem level ci : ℕ) (ch : ℤ) (t : IncrementalMerkleTree), 1 ≤ rem →
      ∃ v, getNode (updatePathGo hashPair zeroValue t level ci ch rem)
          (level + rem) (ci / 2 ^ rem) = some v := by
  intro rem
  induction rem with
  | zero => intro level ci ch t h; omega
  | succ rem ih =>
      intro level ci ch t _
      rw [updatePathGo_succ]
      by_cases hrem : rem = 0
      · subst hrem
        rw [updatePathGo, pow_one]
        exact ⟨_, by rw [getNode_setNode, if_pos ⟨rfl, rfl⟩]⟩
      · obtain ⟨v, hv⟩ := ih (level + 1) (ci / 2) _ _ (by omega)
        refine ⟨v, ?_⟩
        rw [show level + (rem + 1) = level + 1 + rem by omega,
          show ci / 2 ^ (rem + 1) = ci / 2 / 2 ^ rem by
            rw [Nat.div_div_eq_div_mul, ← pow_succ']]
        exact hv

/-- Shape of a successful update, independent of the node invariant. -/
lemma update_shape (t : IncrementalMerkleTree) (i : ℕ) (x : ℤ)
    (hlen : t.leaves.length = t.nextIndex) (hi : i < t.nextIndex) :
    update depth hashPair zeroValue t i x =
      .ok (updatePath depth hashPair zeroValue
        { t with leaves := t.leaves.set i x } i) := by
  rw [update, if_neg (by omega)]
  show Except.ok
      (updatePath depth hashPair zeroValue
        { t with leaves := setLeaf t.leaves i x } i) = _
  rw [show setLeaf t.leaves i x = t.leaves.set i x by
    rw [setLeaf, if_pos (by omega)]]

/-- Every reachable tree satisfies the invariant and, once non-empty, stores a
node at (depth, 0). -/
lemma reachable_invariant (t : IncrementalMerkleTree)
    (h : Reachable depth hashPair zeroValue t) :
    GoodTree depth hashPair zeroValue t ∧
      (1 ≤ depth → t.nextIndex ≠ 0 → ∃ v, getNode t depth 0 = some v) := by
  induction h with
  | empty =>
      exact ⟨goodTree_empty depth hashPair zeroValue, fun _ h0 => absurd rfl h0⟩
  | insertStep t t' leaf idx _hre heq ih =>
      obtain ⟨hg, _⟩ := ih
      have hlt : t.nextIndex < 2 ^ depth := by
        by_contra hge
        rw [insert, if_pos (by rw [MAX_LEAVES]; omega)] at heq
        exact Except.noConfusion heq
      have hshape := insert_shape depth hashPair zeroValue t leaf hg.1 hlt
      rw [hshape] at heq
      obtain ⟨_heq1, heq2⟩ : t.nextIndex = idx ∧
          ({ updatePath depth hashPair zeroValue
              { t with leaves := t.leaves ++ [leaf] } t.nextIndex with
            nextIndex := t.nextIndex + 1 } : IncrementalMerkleTree) = t' := by
        simpa [Prod.ext_iff] using heq
      obtain ⟨t'', hins, hg'', _, _⟩ := insert_ok depth hashPair zeroValue t leaf hg hlt
      rw [hshape] at hins
      have ht'' : t'' = t' := by
        rw [← heq2]
        simpa using hins.symm
      constructor
      · rw [← ht'']
        exact hg''
      · intro hd _
        rw [← heq2]
        show ∃ v, getNode (updatePath depth hashPair zeroValue
          { t with leaves := t.leaves ++ [leaf] } t.nextIndex) depth 0 = some v
        rw [updatePath]
        have := updatePathGo_written hashPair zeroValue depth 0 t.nextIndex
          (((t.leaves ++ [leaf]).get? t.nextIndex).getD zeroValue)
          { t with leaves := t.leaves ++ [leaf] } hd
        rwa [zero_add, Nat.div_eq_of_lt (by omega)] at this
  | updateStep t t' idx newLeaf _hre heq ih =>
      obtain ⟨hg, _⟩ := ih
      have hi : idx < t.nextIndex := by
        by_contra hge
        rw [update, if_pos (by omega)] at heq
        exact Except.noConfusion heq
      have hshape := update_shape depth hashPair zeroValue t idx newLeaf hg.1 hi
      rw [hshape] at heq
      have heq2 : updatePath depth hashPair zeroValue
          { t with leaves := t.leaves.set idx newLeaf } idx = t' := by
        simpa using heq
      obtain ⟨t'', hupd, hg'', _, _⟩ := update_ok depth hashPair zeroValue t idx newLeaf hg hi
      rw [hshape] at hupd
      have ht'' : t'' = t' := by
        rw [← heq2]
        simpa using hupd.symm
      constructor
      · rw [← ht'']
        exact hg''
      · intro hd _
        rw [← heq2]
        rw [updatePath]
        have hcap : t.nextIndex ≤ 2 ^ depth := hg.2.1
        have := updatePathGo_written hashPair zeroValue depth 0 idx
          ((( t.leaves.set idx newLeaf).get? idx).getD zeroValue)
          { t with leaves := t.leaves.set idx newLeaf } hd
        rwa [zero_add, Nat.div_eq_of_lt (by omega)] at this
  | deleteStep t t' idx _hre heq ih =>
      obtain ⟨hg, _⟩ := ih
      rw [deleteLeaf] at heq
      have hi : idx < t.nextIndex := by
        by_contra hge
        rw [update, if_pos (by omega)] at heq
        exact Except.noConfusion heq
      have hshape := update_shape depth hashPair zeroValue t idx zeroValue hg.1 hi
      rw [hshape] at heq
      have heq2 : updatePath depth hashPair zeroValue
          { t with leaves := t.leaves.set idx zeroValue } idx = t' := by
        simpa using heq
      obtain ⟨t'', hupd, hg'', _, _⟩ := update_ok depth hashPair zeroValue t idx zeroValue hg hi
      rw [hshape] at hupd
      have ht'' : t'' = t' := by
        rw [← heq2]
        simpa using hupd.symm
      constructor
      · rw [← ht'']
        exact hg''
      · intro hd _
        rw [← heq2]
        rw [updatePath]
        have hcap : t.nextIndex ≤ 2 ^ depth := hg.2.1
        have := updatePathGo_written hashPair zeroValue depth 0 idx
          ((( t.leaves.set idx zeroValue).get? idx).getD zeroValue)
          { t with leaves := t.leaves.set idx zeroValue } hd
        rwa [zero_add, Nat.div_eq_of_lt (by omega)] at this

/-! ## Claims C1, C5, C7, C9: the tree laws -/



/-- C1: after inserting any list of leaves (within capacity) into an empty
tree, the Merkle path of any populated index verifies against the current
root, for every choice of the opaque hash and zero leaf. -/
theorem claim_C1 (hashPair : ℤ → ℤ → ℤ) (zeroValue : ℤ) (ls : List ℤ) (i : ℕ)
    (hcap : ls.length ≤ 2 ^ TREE_DEPTH) (hi : i < ls.length) :
    ∃ t path pathIndices,
      insertList TREE_DEPTH hashPair zeroValue emptyTree ls = .ok t ∧
      getMerklePath TREE_DEPTH hashPair zeroValue t i = .ok (path, pathIndices) ∧
      verifyMerkleProof TREE_DEPTH hashPair (ls.getD i 0) i path pathIndices
        (getRoot TREE_DEPTH hashPair zeroValue t) = true := by
  obtain ⟨t, hinsl, hg, hleaves, hnext⟩ :=
    insertList_ok TREE_DEPTH hashPair zeroValue ls emptyTree
      (goodTree_empty TREE_DEPTH hashPair zeroValue) (by simpa [emptyTree] using hcap)
  have hleaves' : t.leaves = ls := by simpa [emptyTree] using hleaves
  have hnext' : t.nextIndex = ls.length := by simpa [emptyTree] using hnext
  refine ⟨t, (getMerklePathGo hashPair zeroValue t 0 i [] [] TREE_DEPTH).1,
    (getMerklePathGo hashPair zeroValue t 0 i [] [] TREE_DEPTH).2, hinsl, ?_, ?_⟩
  · rw [getMerklePath, if_neg (by omega)]
  · have hlenp := getMerklePathGo_len hashPair zeroValue t TREE_DEPTH 0 i
    have hilt : i < 2 ^ TREE_DEPTH := by omega
    rw [verifyMerkleProof, if_neg (by push_neg; exact ⟨hlenp.1, hlenp.2⟩)]
    rw [if_neg (by
      rw [reconstructGo_spec hashPair zeroValue t TREE_DEPTH 0 i 0 1,
        Nat.mod_eq_of_lt hilt]
      simp)]
    have hstart : ls.getD i 0 = subtreeHash hashPair zeroValue t.leaves 0 i := by
      show ls.getD i 0 = (t.leaves.get? i).getD zeroValue
      rw [hleaves', List.getD_eq_getElem?_getD, List.get?_eq_getElem?,
        List.getElem?_eq_getElem hi]
      rfl
    rw [hstart,
      computeRootGo_spec TREE_DEPTH hashPair zeroValue t hg.2.2 TREE_DEPTH 0 i (by omega),
      Nat.div_eq_of_lt hilt,
      getRoot_eq TREE_DEPTH hashPair zeroValue t (by norm_num [TREE_DEPTH]) hg]
    simp

/-- C1 witness at a concrete input. -/
theorem claim_C1_witness :
    ([3, 5, 9] : List ℤ).length ≤ 2 ^ TREE_DEPTH ∧ 2 < ([3, 5, 9] : List ℤ).length ∧
      (∃ t path pathIndices,
        insertList TREE_DEPTH (fun a b => a + 2 * b) 7 emptyTree [3, 5, 9] = .ok t ∧
        getMerklePath TREE_DEPTH (fun a b => a + 2 * b) 7 t 2 = .ok (path, pathIndices) ∧
        verifyMerkleProof TREE_DEPTH (fun a b => a + 2 * b)
          (([3, 5, 9] : List ℤ).getD 2 0) 2 path pathIndices
          (getRoot TREE_DEPTH (fun a b => a + 2 * b) 7 t) = true) :=
  ⟨by norm_num [TREE_DEPTH], by norm_num,
    claim_C1 (fun a b => a + 2 * b) 7 [3, 5, 9] 2 (by norm_num [TREE_DEPTH]) (by norm_num)⟩

/-- C5 (amended: the backward direction of the iff does not hold; the root of
a non-empty reachable tree can coincide with the zero hash, e.g. after
delete): for every reachable tree, getRoot returns ZERO_HASHES[depth] when
the tree holds zero leaves, and otherwise returns the stored node at
(depth, 0), which is then present. -/
theorem claim_C5_amended (hashPair : ℤ → ℤ → ℤ) (zeroValue : ℤ)
    (t : IncrementalMerkleTree) (h : Reachable TREE_DEPTH hashPair zeroValue t) :
    (t.nextIndex = 0 → getRoot TREE_DEPTH hashPair zeroValue t =
      zeroHashes hashPair zeroValue TREE_DEPTH) ∧
    (t.nextIndex ≠ 0 → ∃ v, getNode t TREE_DEPTH 0 = some v ∧
      getRoot TREE_DEPTH hashPair zeroValue t = v) := by
  constructor
  · intro h0
    rw [getRoot, if_pos h0]
  · intro h0
    obtain ⟨_, hpres⟩ := reachable_invariant TREE_DEPTH hashPair zeroValue t h
    obtain ⟨v, hv⟩ := hpres (by norm_num [TREE_DEPTH]) h0
    refine ⟨v, hv, ?_⟩
    rw [getRoot, if_neg h0, hv]
    rfl

/-- C5 witness at a concrete input. -/
theorem claim_C5_witness :
    Reachable TREE_DEPTH (fun a b => a + b + 1) 0 emptyTree ∧
      ((emptyTree.nextIndex = 0 →
        getRoot TREE_DEPTH (fun a b => a + b + 1) 0 emptyTree =
          zeroHashes (fun a b => a + b + 1) 0 TREE_DEPTH) ∧
      (emptyTree.nextIndex ≠ 0 → ∃ v, getNode emptyTree TREE_DEPTH 0 = some v ∧
        getRoot TREE_DEPTH (fun a b => a + b + 1) 0 emptyTree = v)) :=
  ⟨Reachable.empty,
    claim_C5_amended (fun a b => a + b + 1) 0 emptyTree Reachable.empty⟩

set_option maxHeartbeats 4000000 in
/-- C5, counterexample to the claim as stated: a reachable tree (insert one
leaf, then delete it) holds one leaf, yet its root equals
ZERO_HASHES[TREE_DEPTH], so the root equals the zero hash without the tree
holding zero leaves. -/
theorem claim_C5_counterexample :
    Reachable TREE_DEPTH cexHashPair 0 cexTree2 ∧ cexTree2.nextIndex ≠ 0 ∧
      getRoot TREE_DEPTH cexHashPair 0 cexTree2 =
        zeroHashes cexHashPair 0 TREE_DEPTH := by
  refine ⟨?_, ?_, ?_⟩
  · exact Reachable.deleteStep cexTree1 cexTree2 0
      (Reachable.insertStep emptyTree cexTree1 5 0 Reachable.empty (by rfl)) (by rfl)
  · decide
  · rfl

/-- The content of claim C7 at an arbitrary depth, proved without ever
unfolding the loop at a literal depth. -/
lemma insert_spec (t : IncrementalMerkleTree) (leaf : ℤ)
    (hlen : t.leaves.length = t.nextIndex) (_hcap : t.nextIndex ≤ 2 ^ depth) :
    (insert depth hashPair zeroValue t leaf = .error .treeFull ↔
      t.nextIndex = 2 ^ depth) ∧
    (t.nextIndex < 2 ^ depth →
      ∃ t', insert depth hashPair zeroValue t leaf = .ok (t.nextIndex, t') ∧
        t'.leaves = t.leaves ++ [leaf] ∧ t'.nextIndex = t.nextIndex + 1) := by
  constructor
  · constructor
    · intro herr
      by_contra hne
      have hlt : t.nextIndex < 2 ^ depth := by omega
      rw [insert_shape depth hashPair zeroValue t leaf hlen hlt] at herr
      exact Except.noConfusion herr
    · intro hful
      rw [insert, if_pos (by rw [MAX_LEAVES]; omega)]
  · intro hlt
    refine ⟨_, insert_shape depth hashPair zeroValue t leaf hlen hlt, ?_, rfl⟩
    show (updatePath depth hashPair zeroValue
        { t with leaves := t.leaves ++ [leaf] } t.nextIndex).leaves =
      t.leaves ++ [leaf]
    rw [updatePath, (updatePathGo_leaves hashPair zeroValue depth _ _ _ _).1]

/-- C7: insert fails with TreeFull exactly when the tree already holds
2 ^ TREE_DEPTH leaves (the failure returns no tree, leaving the state
untouched), and otherwise appends the leaf at the next free index and returns
that index. -/
theorem claim_C7 (hashPair : ℤ → ℤ → ℤ) (zeroValue : ℤ)
    (t : IncrementalMerkleTree) (leaf : ℤ)
    (hlen : t.leaves.length = t.nextIndex) (hcap : t.nextIndex ≤ 2 ^ TREE_DEPTH) :
    (insert TREE_DEPTH hashPair zeroValue t leaf = .error .treeFull ↔
      t.nextIndex = 2 ^ TREE_DEPTH) ∧
    (t.nextIndex < 2 ^ TREE_DEPTH →
      ∃ t', insert TREE_DEPTH hashPair zeroValue t leaf = .ok (t.nextIndex, t') ∧
        t'.leaves = t.leaves ++ [leaf] ∧ t'.nextIndex = t.nextIndex + 1) :=
  insert_spec TREE_DEPTH hashPair zeroValue t leaf hlen hcap

/-- C7 witness at a concrete input. -/
theorem claim_C7_witness :
    emptyTree.leaves.length = emptyTree.nextIndex ∧
      emptyTree.nextIndex ≤ 2 ^ TREE_DEPTH ∧
      ((insert TREE_DEPTH cexHashPair 0 emptyTree 5 = .error .treeFull ↔
        emptyTree.nextIndex = 2 ^ TREE_DEPTH) ∧
      (emptyTree.nextIndex < 2 ^ TREE_DEPTH →
        ∃ t', insert TREE_DEPTH cexHashPair 0 emptyTree 5 =
            .ok (emptyTree.nextIndex, t') ∧
          t'.leaves = emptyTree.leaves ++ [5] ∧
          t'.nextIndex = emptyTree.nextIndex + 1)) :=
  ⟨rfl, by norm_num [TREE_DEPTH, emptyTree],
    claim_C7 cexHashPair 0 emptyTree 5 rfl (by norm_num [TREE_DEPTH, emptyTree])⟩

/-- C9: verifyMerkleProof returns false whenever either list does not have
length exactly TREE_DEPTH; the result is independent of the hash function
(no hash is evaluated). -/
theorem claim_C9 (hashPair : ℤ → ℤ → ℤ) (leaf : ℤ) (index : ℕ)
    (path pathIndices : List ℤ) (root : ℤ)
    (h : path.length ≠ TREE_DEPTH ∨ pathIndices.length ≠ TREE_DEPTH) :
    verifyMerkleProof TREE_DEPTH hashPair leaf index path pathIndices root = false := by
  rw [verifyMerkleProof, if_pos h]

/-- C9 witness at a concrete input. -/
theorem claim_C9_witness :
    (([42] : List ℤ).length ≠ TREE_DEPTH ∨ ([] : List ℤ).length ≠ TREE_DEPTH) ∧
      verifyMerkleProof TREE_DEPTH cexHashPair 3 0 [42] [] 9 = false :=
  ⟨Or.inl (by norm_num [TREE_DEPTH]),
    claim_C9 cexHashPair 3 0 [42] [] 9 (Or.inl (by norm_num [TREE_DEPTH]))⟩

end IMT

namespace Batch

lemma findAvailable_some (roots : List (List ℤ)) :
    ∀ i, findAvailable roots = some i →
      i < roots.length ∧ (roots.getD i []).length < MAX_POLY_DEGREE := by
  induction roots with
  | nil => intro i h; exact Option.noConfusion h
  | cons rl rest ih =>
      intro i h
      rw [findAvailable] at h
      by_cases hfit : rl.length < MAX_POLY_DEGREE
      · rw [if_pos hfit] at h
        obtain rfl : (0 : ℕ) = i := by simpa using h
        exact ⟨by simp, by simpa using hfit⟩
      · rw [if_neg hfit] at h
        rcases hrec : findAvailable rest with _ | j
        · rw [hrec] at h
          exact Option.noConfusion h
        · rw [hrec] at h
          obtain rfl : j + 1 = i := by simpa using h
          obtain ⟨h1, h2⟩ := ih j hrec
          exact ⟨by simpa using h1, by simpa using h2⟩

lemma findAvailable_none (roots : List (List ℤ)) (h : findAvailable roots = none) :
    ∀ i, i < roots.length → MAX_POLY_DEGREE ≤ (roots.getD i []).length := by
  induction roots with
  | nil => intro i hi; simp at hi
  | cons rl rest ih =>
      rw [findAvailable] at h
      by_cases hfit : rl.length < MAX_POLY_DEGREE
      · rw [if_pos hfit] at h
        exact Option.noConfusion h
      · rw [if_neg hfit] at h
        intro i hi
        cases i with
        | zero => simpa using hfit
        | succ i =>
            have hrec : findAvailable rest = none := by
              rcases hrec : findAvailable rest with _ | j
              · rfl
              · rw [hrec] at h; simp at h
            have := ih hrec i (by simpa using hi)
            simpa using this

lemma getD_set_self (l : List (List ℤ)) (i : ℕ) (x : List ℤ) (h : i < l.length) :
    (l.set i x).getD i [] = x := by
  rw [List.getD_eq_getElem?_getD, List.getElem?_set_self (by omega)]
  rfl

lemma getD_set_ne (l : List (List ℤ)) (i j : ℕ) (x : List ℤ) (h : i ≠ j) :
    (l.set i x).getD j [] = l.getD j [] := by
  rw [List.getD_eq_getElem?_getD, List.getElem?_set_ne h, ← List.getD_eq_getElem?_getD]

lemma getD_append_left (l : List (List ℤ)) (x : List ℤ) (j : ℕ) (h : j < l.length) :
    (l ++ [x]).getD j [] = l.getD j [] := by
  rw [List.getD_eq_getElem?_getD, List.getElem?_append_left h, ← List.getD_eq_getElem?_getD]

lemma getD_append_last (l : List (List ℤ)) (x : List ℤ) :
    (l ++ [x]).getD l.length [] = x := by
  rw [List.getD_eq_getElem?_getD, List.getElem?_concat_length]
  rfl

/-- One insertion preserves the batch invariant, provided the secret was
never inserted before. -/
lemma insertSecret_inv (processed : List ℤ) (B R : List (List ℤ))
    (M : ℤ → Option ℕ) (s : ℤ)
    (hinv : BatchInv processed (B, R, M)) (hfresh : s ∉ processed) :
    BatchInv (processed ++ [s]) (insertSecret (B, R, M) s) := by
  obtain ⟨hlen, hfull, hcap, hfwd, hbwd, hdom⟩ := hinv
  dsimp only at hlen hfull hcap hfwd hbwd hdom
  rw [insertSecret]
  dsimp only
  rcases hfind : findAvailable R with _ | i
  · -- no batch has room: append a fresh batch
    have hnone := findAvailable_none R hfind
    refine ⟨by simp [hlen], ?_, ?_, ?_, ?_, ?_⟩
    · intro j hj
      dsimp only at hj ⊢
      have hjlt : j < R.length := by simpa using hj
      rw [getD_append_left R _ j hjlt]
      have h1 := hnone j hjlt
      have h2 := hcap j hjlt
      omega
    · intro j hj
      dsimp only at hj ⊢
      have hjle : j < R.length + 1 := by simpa using hj
      by_cases hjlt : j < R.length
      · rw [getD_append_left R _ j hjlt]
        exact hcap j hjlt
      · have : j = R.length := by omega
        subst this
        rw [getD_append_last]
        show (1 : ℕ) ≤ MAX_POLY_DEGREE
        norm_num [MAX_POLY_DEGREE]
    · intro k j hk
      dsimp only at hk ⊢
      rw [mapSet] at hk
      by_cases hks : k = s
      · rw [if_pos hks] at hk
        obtain rfl : R.length = j := by simpa using hk
        refine ⟨by simp, ?_⟩
        rw [getD_append_last]
        simp [hks]
      · rw [if_neg hks] at hk
        obtain ⟨hj, hmem⟩ := hfwd k j hk
        refine ⟨by simp; omega, ?_⟩
        rw [getD_append_left R _ j hj]
        exact hmem
    · intro j hj k hk
      dsimp only at hj hk ⊢
      have hjle : j < R.length + 1 := by simpa using hj
      rw [mapSet]
      by_cases hjlt : j < R.length
      · rw [getD_append_left R _ j hjlt] at hk
        have hMk := hbwd j hjlt k hk
        have hkproc : k ∈ processed := hdom k (by rw [hMk]; simp)
        have hks : k ≠ s := fun he => hfresh (he ▸ hkproc)
        rw [if_neg hks]
        exact hMk
      · have : j = R.length := by omega
        subst this
        rw [getD_append_last] at hk
        obtain rfl : k = s := by simpa using hk
        rw [if_pos rfl]
    · intro k hk
      dsimp only at hk
      rw [mapSet] at hk
      by_cases hks : k = s
      · subst hks
        exact List.mem_append_right _ (by simp)
      · rw [if_neg hks] at hk
        exact List.mem_append_left _ (hdom k hk)
  · -- the batch at index i has room
    obtain ⟨hi, hroom⟩ := findAvailable_some R i hfind
    have hlast : i + 1 = R.length := by
      by_contra hne
      have := hfull i (by omega)
      omega
    refine ⟨by simp [List.length_set, hlen], ?_, ?_, ?_, ?_, ?_⟩
    · intro j hj
      dsimp only at hj ⊢
      have hjlt : j + 1 < R.length := by simpa [List.length_set] using hj
      have hji : i ≠ j := by omega
      rw [getD_set_ne R i j _ hji]
      exact hfull j hjlt
    · intro j hj
      dsimp only at hj ⊢
      have hjlt : j < R.length := by simpa [List.length_set] using hj
      by_cases hji : j = i
      · subst hji
        rw [getD_set_self R j _ hjlt]
        have := hroom
        simp only [List.length_append, List.length_singleton]
        omega
      · rw [getD_set_ne R i j _ (fun h => hji h.symm)]
        exact hcap j hjlt
    · intro k j hk
      dsimp only at hk ⊢
      rw [mapSet] at hk
      by_cases hks : k = s
      · rw [if_pos hks] at hk
        obtain rfl : i = j := by simpa using hk
        refine ⟨by simpa [List.length_set] using hi, ?_⟩
        rw [getD_set_self R i _ hi]
        exact List.mem_append_right _ (by simp [hks])
      · rw [if_neg hks] at hk
        obtain ⟨hj, hmem⟩ := hfwd k j hk
        refine ⟨by simpa [List.length_set] using hj, ?_⟩
        by_cases hji : j = i
        · subst hji
          rw [getD_set_self R j _ hj]
          exact List.mem_append_left _ hmem
        · rw [getD_set_ne R i j _ (fun h => hji h.symm)]
          exact hmem
    · intro j hj k hk
      dsimp only at hj hk ⊢
      have hjlt : j < R.length := by simpa [List.length_set] using hj
      rw [mapSet]
      by_cases hji : j = i
      · subst hji
        rw [getD_set_self R j _ hjlt] at hk
        rcases List.mem_append.mp hk with hkold | hknew
        · have hMk := hbwd j hjlt k hkold
          have hkproc : k ∈ processed := hdom k (by rw [hMk]; simp)
          have hks : k ≠ s := fun he => hfresh (he ▸ hkproc)
          rw [if_neg hks]
          exact hMk
        · obtain rfl : k = s := by simpa using hknew
          rw [if_pos rfl]
      · rw [getD_set_ne R i j _ (fun h => hji h.symm)] at hk
        have hMk := hbwd j hjlt k hk
        have hkproc : k ∈ processed := hdom k (by rw [hMk]; simp)
        have hks : k ≠ s := fun he => hfresh (he ▸ hkproc)
        rw [if_neg hks]
        exact hMk
    · intro k hk
      dsimp only at hk
      rw [mapSet] at hk
      by_cases hks : k = s
      · subst hks
        exact List.mem_append_right _ (by simp)
      · rw [if_neg hks] at hk
        exact List.mem_append_left _ (hdom k hk)

/-- Folding fresh, pairwise distinct secrets preserves the invariant. -/
lemma foldl_insertSecret_inv (secrets : List ℤ) :
    ∀ (processed : List ℤ)
      (st : List (List ℤ) × List (List ℤ) × (ℤ → Option ℕ)),
      BatchInv processed st → (processed ++ secrets).Nodup →
      BatchInv (processed ++ secrets) (secrets.foldl insertSecret st) := by
  induction secrets with
  | nil =>
      intro processed st hinv _
      simpa using hinv
  | cons s rest ih =>
      intro processed st hinv hnd
      obtain ⟨B, R, M⟩ := st
      have hfresh : s ∉ processed := by
        rw [List.nodup_append] at hnd
        intro hs
        exact hnd.2.2 hs (by simp)
      have hstep := insertSecret_inv processed B R M s hinv hfresh
      have hnd' : ((processed ++ [s]) ++ rest).Nodup := by
        simpa [List.append_assoc] using hnd
      have := ih (processed ++ [s]) (insertSecret (B, R, M) s) hstep hnd'
      simpa [List.append_assoc] using this

lemma batchInv_empty : BatchInv [] ([], [], emptyMap) := by
  refine ⟨rfl, ?_, ?_, ?_, ?_, ?_⟩
  · intro j hj; simp at hj
  · intro j hj; simp at hj
  · intro k j hk; exact Option.noConfusion hk
  · intro j hj; simp at hj
  · intro k hk; simp [emptyMap] at hk

/-- A sequence of calls is the same as one fold over the concatenation. -/
lemma runCalls_eq (calls : List (List ℤ)) :
    runCalls calls = (calls.join).foldl insertSecret ([], [], emptyMap) := by
  rw [runCalls]
  suffices h : ∀ st : List (List ℤ) × List (List ℤ) × (ℤ → Option ℕ),
      calls.foldl (fun st secrets => addSecretsToBatches st.1 st.2.1 st.2.2 secrets) st =
        (calls.join).foldl insertSecret st by
    exact h _
  induction calls with
  | nil => intro st; rfl
  | cons c rest ih =>
      intro st
      obtain ⟨B, R, M⟩ := st
      rw [List.foldl_cons, ih,
        show (c :: rest).join = c ++ rest.join from rfl, List.foldl_append]
      rfl

/-- C6, counterexample to the claim as stated: when the same root is inserted
twice (0 here, once among 128 roots that fill batch 0, then again, which
opens batch 1), the root 0 is listed in batch 0 while the map sends it to
batch 1, so a listed root is not mapped to the batch that lists it. -/
theorem claim_C6_counterexample :
    (0 : ℤ) ∈ cexBatchState.2.1.getD 0 [] ∧ cexBatchState.2.2 0 = some 1 ∧
      cexBatchState.2.2 0 ≠ some 0 := by
  refine ⟨by decide, by decide, by decide⟩

/-- C6 (amended: the roots inserted across all the calls must be pairwise
distinct; the source overwrites the map on a duplicate insertion, breaking
the agreement): after any sequence of addSecretsToBatches calls from the
empty state with pairwise distinct roots, batches and root lists stay
aligned, every batch except at most the last holds exactly MAX_POLY_DEGREE
roots, and the root-to-batch map agrees exactly with the root lists. -/
theorem claim_C6_amended (calls : List (List ℤ)) (hnd : (calls.join).Nodup) :
    (runCalls calls).1.length = (runCalls calls).2.1.length ∧
    (∀ i, i + 1 < (runCalls calls).2.1.length →
      ((runCalls calls).2.1.getD i []).length = MAX_POLY_DEGREE) ∧
    (∀ k i, (runCalls calls).2.2 k = some i →
      i < (runCalls calls).2.1.length ∧ k ∈ (runCalls calls).2.1.getD i []) ∧
    (∀ i, i < (runCalls calls).2.1.length →
      ∀ k, k ∈ (runCalls calls).2.1.getD i [] → (runCalls calls).2.2 k = some i) := by
  have h := foldl_insertSecret_inv (calls.join) [] ([], [], emptyMap)
    batchInv_empty (by simpa using hnd)
  rw [← runCalls_eq] at h
  obtain ⟨h1, h2, _h3, h4, h5, _h6⟩ := h
  exact ⟨h1, h2, h4, h5⟩

/-- C6 witness at a concrete input. -/
theorem claim_C6_witness :
    (([[1, 2], [3]] : List (List ℤ)).join).Nodup ∧
      ((runCalls [[1, 2], [3]]).1.length = (runCalls [[1, 2], [3]]).2.1.length ∧
      (∀ i, i + 1 < (runCalls [[1, 2], [3]]).2.1.length →
        ((runCalls [[1, 2], [3]]).2.1.getD i []).length = MAX_POLY_DEGREE) ∧
      (∀ k i, (runCalls [[1, 2], [3]]).2.2 k = some i →
        i < (runCalls [[1, 2], [3]]).2.1.length ∧
          k ∈ (runCalls [[1, 2], [3]]).2.1.getD i []) ∧
      (∀ i, i < (runCalls [[1, 2], [3]]).2.1.length →
        ∀ k, k ∈ (runCalls [[1, 2], [3]]).2.1.getD i [] →
          (runCalls [[1, 2], [3]]).2.2 k = some i)) :=
  ⟨by decide, claim_C6_amended [[1, 2], [3]] (by decide)⟩

end Batch

namespace Heap

/-! ### Store lemmas -/

lemma writeH_mem_self (σ : Store) (a : ℕ) (o : HObj) :
    (writeH σ a o).mem a = some o := by simp [writeH]

lemma writeH_mem_ne (σ : Store) (a : ℕ) (o : HObj) (b : ℕ) (h : b ≠ a) :
    (writeH σ a o).mem b = σ.mem b := by simp [writeH, h]

lemma writeH_next (σ : Store) (a : ℕ) (o : HObj) : (writeH σ a o).next = σ.next := rfl

lemma allocH_mem_ne (σ : Store) (o : HObj) (b : ℕ) (h : b ≠ σ.next) :
    ((allocH σ o).1).mem b = σ.mem b := by simp [allocH, h]

lemma allocH_mem_self (σ : Store) (o : HObj) :
    ((allocH σ o).1).mem σ.next = some o := by simp [allocH]

lemma allocH_next (σ : Store) (o : HObj) : ((allocH σ o).1).next = σ.next + 1 := rfl

lemma allocH_addr (σ : Store) (o : HObj) : (allocH σ o).2 = σ.next := rfl

lemma writeH_WF (σ : Store) (a : ℕ) (o : HObj) (hWF : σ.WF) (ha : a < σ.next) :
    (writeH σ a o).WF := by
  intro b hb
  have hb' : σ.next ≤ b := hb
  rw [writeH_mem_ne σ a o b (by omega)]
  exact hWF b hb'

lemma allocH_WF (σ : Store) (o : HObj) (hWF : σ.WF) : ((allocH σ o).1).WF := by
  intro b hb
  have hb' : σ.next + 1 ≤ b := hb
  rw [allocH_mem_ne σ o b (by omega)]
  exact hWF b (by omega)

lemma getRefsH_writeH_ne (σ : Store) (a : ℕ) (o : HObj) (b : ℕ) (h : b ≠ a) :
    getRefsH (writeH σ a o) b = getRefsH σ b := by
  rw [getRefsH, getRefsH, writeH_mem_ne σ a o b h]

lemma getRefsH_writeH_self (σ : Store) (a : ℕ) (rs : List ℕ) :
    getRefsH (writeH σ a (.refs rs)) a = rs := by
  rw [getRefsH, writeH_mem_self]

lemma getTableH_writeH_ne (σ : Store) (a : ℕ) (o : HObj) (b : ℕ) (h : b ≠ a) :
    getTableH (writeH σ a o) b = getTableH σ b := by
  rw [getTableH, getTableH, writeH_mem_ne σ a o b h]

lemma getTableH_writeH_self (σ : Store) (a : ℕ) (m : List (ℤ × ℕ)) :
    getTableH (writeH σ a (.table m)) a = m := by
  rw [getTableH, writeH_mem_self]

lemma getRefsH_allocH_ne (σ : Store) (o : HObj) (b : ℕ) (h : b ≠ σ.next) :
    getRefsH (allocH σ o).1 b = getRefsH σ b := by
  rw [getRefsH, getRefsH, allocH_mem_ne σ o b h]

lemma getTableH_allocH_ne (σ : Store) (o : HObj) (b : ℕ) (h : b ≠ σ.next) :
    getTableH (allocH σ o).1 b = getTableH σ b := by
  rw [getTableH, getTableH, allocH_mem_ne σ o b h]

/-- Key set of a Map after set: the old keys plus the new key. -/
lemma tableSet_keys (m : List (ℤ × ℕ)) (k : ℤ) (v : ℕ) (x : ℤ) :
    (∃ u, (x, u) ∈ tableSet m k v) ↔ (∃ u, (x, u) ∈ m) ∨ x = k := by
  rw [tableSet]
  by_cases hany : m.any (fun e => e.1 == k) = true
  · rw [if_pos hany]
    constructor
    · rintro ⟨u, hu⟩
      rw [List.mem_map] at hu
      obtain ⟨e, hem, hfe⟩ := hu
      by_cases hek : (e.1 == k) = true
      · rw [if_pos hek] at hfe
        exact Or.inr (congrArg Prod.fst hfe).symm
      · rw [if_neg hek] at hfe
        exact Or.inl ⟨u, hfe ▸ hem⟩
    · rintro (⟨u, hu⟩ | rfl)
      · by_cases hxk : x = k
        · subst hxk
          obtain ⟨e, hem, hek⟩ := List.any_eq_true.mp hany
          exact ⟨v, List.mem_map.mpr ⟨e, hem, by rw [if_pos hek]⟩⟩
        · refine ⟨u, List.mem_map.mpr ⟨(x, u), hu, ?_⟩⟩
          rw [if_neg (by simpa using hxk)]
      · obtain ⟨e, hem, hek⟩ := List.any_eq_true.mp hany
        exact ⟨v, List.mem_map.mpr ⟨e, hem, by rw [if_pos hek]⟩⟩
  · rw [if_neg hany]
    constructor
    · rintro ⟨u, hu⟩
      rcases List.mem_append.mp hu with h | h
      · exact Or.inl ⟨u, h⟩
      · have hx : (x, u) = (k, v) := by simpa using h
        exact Or.inr (congrArg Prod.fst hx)
    · rintro (⟨u, hu⟩ | rfl)
      · exact ⟨u, List.mem_append_left _ hu⟩
      · exact ⟨v, List.mem_append_right _ (by simp)⟩

lemma findAvailableH_lt (σ : Store) (l : List ℕ) :
    ∀ i, findAvailableH σ l = some i → i < l.length := by
  induction l with
  | nil => intro i h; exact Option.noConfusion h
  | cons a rest ih =>
      intro i h
      rw [findAvailableH] at h
      by_cases hfit : (getIntsH σ a).length < MAX_POLY_DEGREE
      · rw [if_pos hfit] at h
        obtain rfl : (0 : ℕ) = i := by simpa using h
        simp
      · rw [if_neg hfit] at h
        rcases hrec : findAvailableH σ rest with _ | j
        · rw [hrec] at h
          exact Option.noConfusion h
        · rw [hrec] at h
          obtain rfl : j + 1 = i := by simpa using h
          have := ih j hrec
          simpa using this

lemma getD_mem_nat (l : List ℕ) (i : ℕ) (h : i < l.length) : l.getD i 0 ∈ l := by
  rw [List.getD_eq_getElem?_getD, List.getElem?_eq_getElem h]
  exact List.getElem_mem h

lemma foldInv_write_other (σ0 : Store) (mapA cbA crA : ℕ) (processed : List ℤ)
    (σ : Store) (a : ℕ) (o : HObj)
    (hinv : FoldInv σ0 mapA cbA crA processed σ)
    (ha0 : σ0.next ≤ a) (ha1 : a < σ.next) (hacr : a ≠ crA) (hamap : a ≠ mapA) :
    FoldInv σ0 mapA cbA crA processed (writeH σ a o) := by
  obtain ⟨hWF, hnext, hcbn, hcrn, hframe, helem, hkeys⟩ := hinv
  refine ⟨writeH_WF σ a o hWF ha1, ?_, ?_, ?_, ?_, ?_, ?_⟩
  · rw [writeH_next]; exact hnext
  · rw [writeH_next]; exact hcbn
  · rw [writeH_next]; exact hcrn
  · intro b hb hbmap
    rw [writeH_mem_ne σ a o b (by omega)]
    exact hframe b hb hbmap
  · intro b hb
    rw [getRefsH_writeH_ne σ a o crA (fun h => hacr h.symm)] at hb
    obtain ⟨h1, h2, h3, h4⟩ := helem b hb
    exact ⟨h1, by rw [writeH_next]; exact h2, h3, h4⟩
  · intro k
    rw [getTableH_writeH_ne σ a o mapA (fun h => hamap h.symm)]
    exact hkeys k

lemma foldInv_alloc (σ0 : Store) (mapA cbA crA : ℕ) (processed : List ℤ)
    (σ : Store) (o : HObj) (hmap : mapA < σ0.next)
    (hinv : FoldInv σ0 mapA cbA crA processed σ) :
    FoldInv σ0 mapA cbA crA processed (allocH σ o).1 := by
  obtain ⟨hWF, hnext, hcbn, hcrn, hframe, helem, hkeys⟩ := hinv
  refine ⟨allocH_WF σ o hWF, ?_, ?_, ?_, ?_, ?_, ?_⟩
  · rw [allocH_next]; omega
  · rw [allocH_next]; omega
  · rw [allocH_next]; omega
  · intro b hb hbmap
    rw [allocH_mem_ne σ o b (by omega)]
    exact hframe b hb hbmap
  · intro b hb
    rw [getRefsH_allocH_ne σ o crA (by omega)] at hb
    obtain ⟨h1, h2, h3, h4⟩ := helem b hb
    exact ⟨h1, by rw [allocH_next]; omega, h3, h4⟩
  · intro k
    rw [getTableH_allocH_ne σ o mapA (by omega)]
    exact hkeys k

lemma foldInv_write_crA (σ0 : Store) (mapA cbA crA : ℕ) (processed : List ℤ)
    (σ : Store) (rs : List ℕ)
    (hmap : mapA < σ0.next) (hcr : σ0.next ≤ crA)
    (hinv : FoldInv σ0 mapA cbA crA processed σ)
    (hrs : ∀ b ∈ rs, σ0.next ≤ b ∧ b < σ.next ∧ b ≠ crA ∧ b ≠ cbA) :
    FoldInv σ0 mapA cbA crA processed (writeH σ crA (.refs rs)) := by
  obtain ⟨hWF, hnext, hcbn, hcrn, hframe, helem, hkeys⟩ := hinv
  refine ⟨writeH_WF σ crA _ hWF hcrn, ?_, ?_, ?_, ?_, ?_, ?_⟩
  · rw [writeH_next]; exact hnext
  · rw [writeH_next]; exact hcbn
  · rw [writeH_next]; exact hcrn
  · intro b hb hbmap
    rw [writeH_mem_ne σ crA _ b (by omega)]
    exact hframe b hb hbmap
  · intro b hb
    rw [getRefsH_writeH_self] at hb
    obtain ⟨h1, h2, h3, h4⟩ := hrs b hb
    exact ⟨h1, by rw [writeH_next]; exact h2, h3, h4⟩
  · intro k
    rw [getTableH_writeH_ne σ crA _ mapA (by omega)]
    exact hkeys k

lemma foldInv_write_map (σ0 : Store) (mapA cbA crA : ℕ) (processed : List ℤ)
    (σ : Store) (s : ℤ) (val : ℕ)
    (hmap : mapA < σ0.next) (hcr : σ0.next ≤ crA)
    (hinv : FoldInv σ0 mapA cbA crA processed σ) :
    FoldInv σ0 mapA cbA crA (processed ++ [s])
      (writeH σ mapA (.table (tableSet (getTableH σ mapA) s val))) := by
  obtain ⟨hWF, hnext, hcbn, hcrn, hframe, helem, hkeys⟩ := hinv
  refine ⟨writeH_WF σ mapA _ hWF (by omega), ?_, ?_, ?_, ?_, ?_, ?_⟩
  · rw [writeH_next]; exact hnext
  · rw [writeH_next]; exact hcbn
  · rw [writeH_next]; exact hcrn
  · intro b hb hbmap
    rw [writeH_mem_ne σ mapA _ b hbmap]
    exact hframe b hb hbmap
  · intro b hb
    rw [getRefsH_writeH_ne σ mapA _ crA (by omega)] at hb
    obtain ⟨h1, h2, h3, h4⟩ := helem b hb
    exact ⟨h1, by rw [writeH_next]; exact h2, h3, h4⟩
  · intro k
    rw [getTableH_writeH_self]
    rw [tableSet_keys, hkeys k]
    constructor
    · rintro ((h | h) | h)
      · exact Or.inl h
      · exact Or.inr (List.mem_append_left _ h)
      · exact Or.inr (List.mem_append_right _ (by simp [h]))
    · rintro (h | h)
      · exact Or.inl (Or.inl h)
      · rcases List.mem_append.mp h with h | h
        · exact Or.inl (Or.inr h)
        · exact Or.inr (by simpa using h)

/-- One loop iteration preserves the frame invariant, recording the secret. -/
lemma insertSecretH_inv (σ0 : Store) (mapA cbA crA : ℕ)
    (hmap : mapA < σ0.next) (hcb : σ0.next ≤ cbA) (hcr : σ0.next ≤ crA)
    (hbc : cbA ≠ crA) (processed : List ℤ) (σ : Store) (s : ℤ)
    (hinv : FoldInv σ0 mapA cbA crA processed σ) :
    FoldInv σ0 mapA cbA crA (processed ++ [s])
      (insertSecretH cbA crA mapA σ s) := by
  rcases hfind : findAvailableH σ (getRefsH σ crA) with _ | i
  · -- open a new batch: two allocations, then writes to crA, cbA and mapA
    have main : ∀ (o1 o2 o3 : HObj) (val : ℕ),
        FoldInv σ0 mapA cbA crA (processed ++ [s])
          (writeH
            (writeH
              (writeH (allocH (allocH σ o1).1 o2).1 crA
                (.refs (getRefsH (allocH (allocH σ o1).1 o2).1 crA ++
                  [(allocH σ o1).2])))
              cbA o3)
            mapA
            (.table (tableSet
              (getTableH
                (writeH
                  (writeH (allocH (allocH σ o1).1 o2).1 crA
                    (.refs (getRefsH (allocH (allocH σ o1).1 o2).1 crA ++
                      [(allocH σ o1).2])))
                  cbA o3)
                mapA) s val))) := by
      intro o1 o2 o3 val
      have hnext : σ0.next ≤ σ.next := hinv.2.1
      have hcbn : cbA < σ.next := hinv.2.2.1
      have hcrn : crA < σ.next := hinv.2.2.2.1
      have helem := hinv.2.2.2.2.2.1
      have hinv1 := foldInv_alloc σ0 mapA cbA crA processed σ o1 hmap hinv
      have hinv2 := foldInv_alloc σ0 mapA cbA crA processed _ o2 hmap hinv1
      have hrefs2 : getRefsH (allocH (allocH σ o1).1 o2).1 crA =
          getRefsH σ crA := by
        rw [getRefsH_allocH_ne _ _ crA (by rw [allocH_next]; omega),
          getRefsH_allocH_ne _ _ crA (by omega)]
      have hinv3 := foldInv_write_crA σ0 mapA cbA crA processed _
        (getRefsH (allocH (allocH σ o1).1 o2).1 crA ++ [(allocH σ o1).2])
        hmap hcr hinv2 (by
          intro b hb
          rcases List.mem_append.mp hb with hb | hb
          · rw [hrefs2] at hb
            obtain ⟨h1, h2, h3, h4⟩ := helem b hb
            refine ⟨h1, ?_, h3, h4⟩
            rw [allocH_next, allocH_next]
            omega
          · obtain rfl : b = σ.next := by simpa [allocH_addr] using hb
            refine ⟨by omega, ?_, by omega, by omega⟩
            rw [allocH_next, allocH_next]
            omega)
      have hinv4 := foldInv_write_other σ0 mapA cbA crA processed _ cbA o3
        hinv3 hcb (by
          rw [writeH_next, allocH_next, allocH_next]
          omega) hbc (by omega)
      exact foldInv_write_map σ0 mapA cbA crA processed _ s val hmap hcr hinv4
    show FoldInv σ0 mapA cbA crA (processed ++ [s])
      (insertSecretH cbA crA mapA σ s)
    rw [insertSecretH, hfind]
    exact main _ _ _ _
  · -- push into the batch at index i: write the root array, allocate the new
    -- polynomial, then write cbA and mapA
    have hilt := findAvailableH_lt σ _ i hfind
    obtain ⟨hra0, hra1, hra2, hra3⟩ := hinv.2.2.2.2.2.1
      ((getRefsH σ crA).getD i 0) (getD_mem_nat (getRefsH σ crA) i hilt)
    have main : ∀ (o1 o2 o3 : HObj) (val : ℕ),
        FoldInv σ0 mapA cbA crA (processed ++ [s])
          (writeH
            (writeH (allocH (writeH σ ((getRefsH σ crA).getD i 0) o1) o2).1
              cbA o3)
            mapA
            (.table (tableSet
              (getTableH
                (writeH (allocH (writeH σ ((getRefsH σ crA).getD i 0) o1) o2).1
                  cbA o3)
                mapA) s val))) := by
      intro o1 o2 o3 val
      have hnext : σ0.next ≤ σ.next := hinv.2.1
      have hcbn : cbA < σ.next := hinv.2.2.1
      have hinv1 := foldInv_write_other σ0 mapA cbA crA processed σ
        ((getRefsH σ crA).getD i 0) o1 hinv hra0 hra1 hra2 (by omega)
      have hinv2 := foldInv_alloc σ0 mapA cbA crA processed _ o2 hmap hinv1
      have hinv3 := foldInv_write_other σ0 mapA cbA crA processed _ cbA o3
        hinv2 hcb (by
          rw [allocH_next, writeH_next]
          omega) hbc (by omega)
      exact foldInv_write_map σ0 mapA cbA crA processed _ s val hmap hcr hinv3
    show FoldInv σ0 mapA cbA crA (processed ++ [s])
      (insertSecretH cbA crA mapA σ s)
    rw [insertSecretH, hfind]
    exact main _ _ _ _

lemma foldl_insertSecretH_inv (σ0 : Store) (mapA cbA crA : ℕ)
    (hmap : mapA < σ0.next) (hcb : σ0.next ≤ cbA) (hcr : σ0.next ≤ crA)
    (hbc : cbA ≠ crA) (secrets : List ℤ) :
    ∀ (processed : List ℤ) (σ : Store),
      FoldInv σ0 mapA cbA crA processed σ →
      FoldInv σ0 mapA cbA crA (processed ++ secrets)
        (secrets.foldl (insertSecretH cbA crA mapA) σ) := by
  induction secrets with
  | nil =>
      intro processed σ h
      simpa using h
  | cons s rest ih =>
      intro processed σ h
      have h1 := insertSecretH_inv σ0 mapA cbA crA hmap hcb hcr hbc processed σ s h
      have h2 := ih (processed ++ [s]) _ h1
      simpa [List.foldl_cons, List.append_assoc] using h2

lemma getTableH_congr (σ τ : Store) (a : ℕ) (h : σ.mem a = τ.mem a) :
    getTableH σ a = getTableH τ a := by
  unfold getTableH
  rw [h]

/-- The deep copy of the root arrays only allocates: the result is
well-formed, the frontier only moves up, nothing pre-existing changes, and
every returned address is fresh. -/
lemma copyRootArrays_spec (l : List ℕ) :
    ∀ σ : Store, σ.WF →
      (copyRootArrays σ l).1.WF ∧ σ.next ≤ (copyRootArrays σ l).1.next ∧
      (∀ a, a < σ.next → (copyRootArrays σ l).1.mem a = σ.mem a) ∧
      (∀ a ∈ (copyRootArrays σ l).2,
        σ.next ≤ a ∧ a < (copyRootArrays σ l).1.next) := by
  induction l with
  | nil =>
      intro σ h
      exact ⟨h, le_refl _, fun a _ => rfl, by simp [copyRootArrays]⟩
  | cons b rest ih =>
      intro σ h
      obtain ⟨h1, h2, h3, h4⟩ :=
        ih (allocH σ (.ints (getIntsH σ b))).1 (allocH_WF _ _ h)
      have hn : ((allocH σ (.ints (getIntsH σ b))).1).next = σ.next + 1 :=
        allocH_next _ _
      rw [show copyRootArrays σ (b :: rest) =
        ((copyRootArrays (allocH σ (.ints (getIntsH σ b))).1 rest).1,
          (allocH σ (.ints (getIntsH σ b))).2 ::
            (copyRootArrays (allocH σ (.ints (getIntsH σ b))).1 rest).2) from rfl]
      dsimp only
      refine ⟨h1, by omega, ?_, ?_⟩
      · intro a ha
        rw [h3 a (by omega), allocH_mem_ne σ _ a (by omega)]
      · intro a ha
        rcases List.mem_cons.mp ha with rfl | hmem
        · simp only [allocH_addr]
          exact ⟨le_refl _, by omega⟩
        · obtain ⟨ha1, ha2⟩ := h4 a hmem
          exact ⟨by omega, ha2⟩

/-- After the three setup steps of addSecretsToBatches (shallow copy of
batches, deep copy of batchRoots, boxing the copy list), the frame invariant
holds with no secret processed yet. -/
lemma foldInv_setup (σ : Store) (mapA : ℕ) (hWF : σ.WF) (hmap : mapA < σ.next)
    (o1 : HObj) (l : List ℕ) :
    FoldInv σ mapA (allocH σ o1).2
      (allocH (copyRootArrays (allocH σ o1).1 l).1
        (.refs (copyRootArrays (allocH σ o1).1 l).2)).2
      []
      (allocH (copyRootArrays (allocH σ o1).1 l).1
        (.refs (copyRootArrays (allocH σ o1).1 l).2)).1 := by
  obtain ⟨hc1, hc2, hc3, hc4⟩ :=
    copyRootArrays_spec l (allocH σ o1).1 (allocH_WF σ o1 hWF)
  have hn1 : ((allocH σ o1).1).next = σ.next + 1 := allocH_next σ o1
  have hn2 : σ.next + 1 ≤ (copyRootArrays (allocH σ o1).1 l).1.next := hn1 ▸ hc2
  refine ⟨allocH_WF _ _ hc1, ?_, ?_, ?_, ?_, ?_, ?_⟩
  · rw [allocH_next]
    omega
  · simp only [allocH_addr, allocH_next]
    omega
  · simp only [allocH_addr, allocH_next]
    omega
  · intro a ha hamap
    rw [allocH_mem_ne _ _ a (by omega), hc3 a (by omega),
      allocH_mem_ne σ o1 a (by omega)]
  · intro b hb
    have hrefs : getRefsH (allocH (copyRootArrays (allocH σ o1).1 l).1
        (.refs (copyRootArrays (allocH σ o1).1 l).2)).1
        (allocH (copyRootArrays (allocH σ o1).1 l).1
          (.refs (copyRootArrays (allocH σ o1).1 l).2)).2 =
        (copyRootArrays (allocH σ o1).1 l).2 := by
      simp only [allocH_addr, getRefsH, allocH_mem_self]
    rw [hrefs] at hb
    obtain ⟨hb1, hb2⟩ := hc4 b hb
    simp only [allocH_addr, allocH_next]
    omega
  · intro k
    have hmem : ((allocH (copyRootArrays (allocH σ o1).1 l).1
        (.refs (copyRootArrays (allocH σ o1).1 l).2)).1).mem mapA = σ.mem mapA := by
      rw [allocH_mem_ne _ _ mapA (by omega), hc3 mapA (by omega),
        allocH_mem_ne σ o1 mapA (by omega)]
    rw [getTableH_congr _ σ mapA hmem]
    simp

/-- C10: addSecretsToBatches never mutates its batches and batchRoots
arguments: every pre-existing heap object other than the caller's userMap is
left untouched, the returned batch and root containers are newly allocated,
and the root lists handed back are fresh copies. The caller's userMap object
is mutated in place: the very same object is returned, and its key set
afterwards is its old key set together with the inserted secrets. -/
theorem claim_C10 (σ : Store) (batchesA batchRootsA mapA : ℕ)
    (newSecrets : List ℤ) (hWF : σ.WF) (hmap : mapA < σ.next) :
    (∀ a, a < σ.next → a ≠ mapA →
      (addSecretsToBatchesH σ batchesA batchRootsA mapA newSecrets).1.mem a =
        σ.mem a) ∧
    σ.next ≤ (addSecretsToBatchesH σ batchesA batchRootsA mapA newSecrets).2.1 ∧
    σ.next ≤ (addSecretsToBatchesH σ batchesA batchRootsA mapA newSecrets).2.2.1 ∧
    (addSecretsToBatchesH σ batchesA batchRootsA mapA newSecrets).2.1 ≠
      (addSecretsToBatchesH σ batchesA batchRootsA mapA newSecrets).2.2.1 ∧
    (∀ a, a ∈ getRefsH
        (addSecretsToBatchesH σ batchesA batchRootsA mapA newSecrets).1
        (addSecretsToBatchesH σ batchesA batchRootsA mapA newSecrets).2.2.1 →
      σ.next ≤ a) ∧
    (addSecretsToBatchesH σ batchesA batchRootsA mapA newSecrets).2.2.2 = mapA ∧
    (∀ k, (∃ v, (k, v) ∈ getTableH
        (addSecretsToBatchesH σ batchesA batchRootsA mapA newSecrets).1 mapA) ↔
      (∃ v, (k, v) ∈ getTableH σ mapA) ∨ k ∈ newSecrets) := by
  have hsetup := foldInv_setup σ mapA hWF hmap (.refs (getRefsH σ batchesA))
    (getRefsH (allocH σ (.refs (getRefsH σ batchesA))).1 batchRootsA)
  obtain ⟨hc1, hc2, hc3, hc4⟩ := copyRootArrays_spec
    (getRefsH (allocH σ (.refs (getRefsH σ batchesA))).1 batchRootsA)
    (allocH σ (.refs (getRefsH σ batchesA))).1 (allocH_WF _ _ hWF)
  have hn1 : ((allocH σ (.refs (getRefsH σ batchesA))).1).next = σ.next + 1 :=
    allocH_next _ _
  have hn2 : σ.next + 1 ≤ (copyRootArrays (allocH σ (.refs (getRefsH σ
      batchesA))).1 (getRefsH (allocH σ (.refs (getRefsH σ batchesA))).1
      batchRootsA)).1.next := hn1 ▸ hc2
  have hfold := foldl_insertSecretH_inv σ mapA
    (allocH σ (.refs (getRefsH σ batchesA))).2
    (allocH (copyRootArrays (allocH σ (.refs (getRefsH σ batchesA))).1
        (getRefsH (allocH σ (.refs (getRefsH σ batchesA))).1 batchRootsA)).1
      (.refs (copyRootArrays (allocH σ (.refs (getRefsH σ batchesA))).1
        (getRefsH (allocH σ (.refs (getRefsH σ batchesA))).1 batchRootsA)).2)).2
    hmap (le_of_eq (allocH_addr σ (.refs (getRefsH σ batchesA))).symm)
    (by simp only [allocH_addr]; omega)
    (by simp only [allocH_addr]; omega)
    newSecrets [] _ hsetup
  obtain ⟨hW, hnx, hcbn, hcrn, hframe, helem, hkeys⟩ := hfold
  refine ⟨?_, ?_, ?_, ?_, ?_, rfl, ?_⟩
  · intro a ha hm
    exact hframe a ha hm
  · exact le_of_eq (allocH_addr σ (.refs (getRefsH σ batchesA))).symm
  · show σ.next ≤ (copyRootArrays (allocH σ (.refs (getRefsH σ batchesA))).1
      (getRefsH (allocH σ (.refs (getRefsH σ batchesA))).1 batchRootsA)).1.next
    omega
  · show σ.next ≠ (copyRootArrays (allocH σ (.refs (getRefsH σ batchesA))).1
      (getRefsH (allocH σ (.refs (getRefsH σ batchesA))).1 batchRootsA)).1.next
    omega
  · intro a ha
    exact (helem a ha).1
  · intro k
    exact hkeys k

/-- Instantiation of claim C10 on a store holding one empty map at address 0,
inserting the single secret 7. -/
theorem claim_C10_witness :
    ∃ v, ((7 : ℤ), v) ∈ getTableH
      (addSecretsToBatchesH mapOnlyStore 5 6 0 [7]).1 0 := by
  have hWF : mapOnlyStore.WF := by
    intro a ha
    have ha1 : 1 ≤ a := ha
    show (if a = 0 then some (HObj.table []) else none) = none
    rw [if_neg (by omega)]
  have h := claim_C10 mapOnlyStore 5 6 0 [7] hWF Nat.one_pos
  exact (h.2.2.2.2.2.2 7).mpr (Or.inr (by simp))

end Heap

end ZKPCompare
